import Mathlib

/-!
Verification of the passclip n-gram model core.

This file gives a shallow embedding of the corpus loader, transition-table
builder, generator/sampler and the bounded retry loop of the passclip
repository, and proves or refutes the frozen specification claims about them.

Sources embedded (from src/src/passclip/):
- markov_chain.py: class MarkovChain with load_wordlist,
  build_transition_table, generate_string.
- generator.py: class MarkovChainGenerator with the wordlist loader,
  the transitions-dict builder and generate_word.
- main.py: the generate command's bounded retry loop.

Modelling conventions:
- A word is a list of characters; raw file lines are lists of characters.
- Python dict and Counter values are modelled as association lists in
  insertion order; dict lookup is first-match.  The tables in the source are
  collections.defaultdict(Counter), so a plain subscript lookup of a missing
  key inserts that key with an empty counter at the end of the dict; ddGet
  models this, returning the counter together with the possibly-extended
  table.
- The source of randomness is an injected stream of naturals, one per draw;
  a weighted draw reduces its sample modulo the total weight and walks the
  cumulative weights (random.choices), and a uniform draw over the expanded
  element multiset reduces modulo its size (secrets.choice over
  Counter.elements()).
- Errors are explicit constructors instead of raised ValueError /
  FileNotFoundError; the exhausted constructor carries the offending
  prefix exactly as the source's message does.
- Python's str.isalpha and str.lower are Unicode-wide; they are modelled
  exactly on the Latin-1 block (pyCharIsAlpha, pyCharLower), which in
  particular keeps non-ASCII letters such as the character 0xE9 just as the
  source does.  Codepoints above the block are classified as non-letters and
  left unchanged by lowering; no theorem below depends on the classification
  or mapping of any character above the block.
-/

namespace Passclip

/-- A word (or a raw input line): a list of characters. -/
abbrev Word := List Char

/-- A Counter of next characters: an association list in insertion order. -/
abbrev CharCounter := List (Char × Nat)

/-- A transition table: an association list from fixed-width contexts to
counters, in insertion order, as a Python dict of Counters. -/
abbrev TransTable := List (Word × CharCounter)

/-! ## Corpus loader -/

/-- Python str.isalpha at the character level.  Python accepts every Unicode
letter (categories Lu, Ll, Lt, Lm, Lo), not only ASCII.  This classifier is
exact on the whole Latin-1 block (codepoints up to 0xFF), whose Unicode
letters are A-Z, a-z, the ordinal indicators 0xAA and 0xBA, the micro sign
0xB5, and the accented ranges 0xC0-0xD6, 0xD8-0xF6 and 0xF8-0xFF.
Codepoints above the block are classified as non-letters here; no statement
in this file evaluates the loaders on such characters and no theorem depends
on their classification. -/
def pyCharIsAlpha (c : Char) : Bool :=
  decide ((65 ≤ c.toNat ∧ c.toNat ≤ 90) ∨ (97 ≤ c.toNat ∧ c.toNat ≤ 122) ∨
    c.toNat = 0xAA ∨ c.toNat = 0xB5 ∨ c.toNat = 0xBA ∨
    (0xC0 ≤ c.toNat ∧ c.toNat ≤ 0xD6) ∨ (0xD8 ≤ c.toNat ∧ c.toNat ≤ 0xF6) ∨
    (0xF8 ≤ c.toNat ∧ c.toNat ≤ 0xFF))

/-- Python str.lower at the character level, exact on the Latin-1 block: the
uppercase letters A-Z, 0xC0-0xD6 and 0xD8-0xDE move down by 32 (the simple
Unicode lowercase mapping), every other character of the block is unchanged;
in particular the lowercase accented letters such as 0xE9 map to themselves.
Codepoints above the block are returned unchanged; no theorem depends on
their mapping. -/
def pyCharLower (c : Char) : Char :=
  if (65 ≤ c.toNat ∧ c.toNat ≤ 90) ∨ (0xC0 ≤ c.toNat ∧ c.toNat ≤ 0xD6) ∨
      (0xD8 ≤ c.toNat ∧ c.toNat ≤ 0xDE) then
    Char.ofNat (c.toNat + 32)
  else c

/-- Python str.isalpha on a line: nonempty and all characters alphabetic. -/
def pyIsAlpha (w : Word) : Bool :=
  !w.isEmpty && w.all pyCharIsAlpha

/-- Python str.lower on a word. -/
def lowerWord (w : Word) : Word :=
  w.map pyCharLower

/-- Python set.add: the set is modelled as its insertion-ordered list of
distinct elements. -/
def setInsert (s : List Word) (w : Word) : List Word :=
  if w ∈ s then s else s ++ [w]

/-- MarkovChain.load_wordlist (markov_chain.py lines 59-63), applied to the
lines of the file: start from an empty set and add the lowercased form of
every line that passes str.isalpha. -/
def load_wordlist (lines : List Word) : List Word :=
  lines.foldl (fun s word => if pyIsAlpha word then setInsert s (lowerWord word) else s) []

/-- Python list.remove: drop the first occurrence of the given element. -/
def removeFirst : List Word → Word → List Word
  | [], _ => []
  | x :: xs, w => if x = w then xs else x :: removeFirst xs w

theorem length_removeFirst_of_mem {l : List Word} {w : Word} (h : w ∈ l) :
    (removeFirst l w).length = l.length - 1 := by
  induction l with
  | nil => cases h
  | cons x xs ih =>
    rw [removeFirst]
    by_cases hx : x = w
    · rw [if_pos hx]; rfl
    · rw [if_neg hx]
      have hmem : w ∈ xs := by
        rcases List.mem_cons.mp h with h1 | h1
        · exact absurd h1.symm hx
        · exact h1
      have hlen : 1 ≤ xs.length := List.length_pos.mpr (List.ne_nil_of_mem hmem)
      simp only [List.length_cons, ih hmem]
      omega

/-- The invalid-word removal loop of MarkovChainGenerator._load_wordlist_from_file
(generator.py lines 47-50): it iterates over the list by index while removing
the first occurrence of every non-alphabetic word it visits, so the index can
skip elements after a removal.  Modelled with Python's list-iterator
semantics: examine position i, possibly remove, then move to position i+1 of
the modified list. -/
def buggyClean (l : List Word) (i : Nat) : List Word :=
  if h : i < l.length then
    let word := l[i]
    if pyIsAlpha word then buggyClean l (i + 1)
    else buggyClean (removeFirst l word) (i + 1)
  else l
termination_by l.length - i
decreasing_by
  · omega
  · have := length_removeFirst_of_mem (List.getElem_mem h)
    omega

/-- MarkovChainGenerator._load_wordlist_from_file (generator.py lines 43-57),
applied to the lines of the file: run the buggy removal loop, then rebuild the
list as the lowercased forms of the lines that pass str.isalpha.  The result
is a list, not a set: no deduplication happens. -/
def loadWordlistFromFile (lines : List Word) : List Word :=
  ((buggyClean lines 0).filter pyIsAlpha).map lowerWord

/-! ## Transition table builder -/

/-- Pad a word with order-many start markers (f-string with '^' * order). -/
def padWord (k : Nat) (w : Word) : Word :=
  List.replicate k '^' ++ w

/-- The window substring word[i : i + order] of the padded word. -/
def winPfx (k : Nat) (w : Word) (i : Nat) : Word :=
  ((padWord k w).drop i).take k

/-- The character word[i + order] of the padded word. -/
def winNext (k : Nat) (w : Word) (i : Nat) : Char :=
  (padWord k w).getD (i + k) '^'

/-- Counter increment (counter[next_char] += 1): bump the first entry with the
given key, or append a fresh entry with count 1. -/
def counterIncr : CharCounter → Char → CharCounter
  | [], c => [(c, 1)]
  | (d, n) :: rest, c =>
      if d = c then (d, n + 1) :: rest else (d, n) :: counterIncr rest c

/-- Increment of a defaultdict(Counter) cell
(transition_table[pfx][next_char] += 1): bump the counter of the first
entry with the given key, or append a fresh key with a one-element counter. -/
def tableIncr : TransTable → Word → Char → TransTable
  | [], p, c => [(p, [(c, 1)])]
  | (q, cnt) :: rest, p, c =>
      if q = p then (q, counterIncr cnt c) :: rest else (q, cnt) :: tableIncr rest p c

/-- The inner loop of the table builders: record every window of one padded
word (markov_chain.py lines 128-137 and generator.py lines 73-78, which are
the same loop). -/
def buildWord (k : Nat) (t : TransTable) (w : Word) : TransTable :=
  (List.range ((padWord k w).length - k)).foldl
    (fun t i => tableIncr t (winPfx k w i) (winNext k w i)) t

/-- The table builder shared by MarkovChain.build_transition_table and
MarkovChainGenerator._build_transitions_dict: fold the window recording over
all training words, starting from an empty defaultdict(Counter). -/
def buildTable (k : Nat) (ws : List Word) : TransTable :=
  ws.foldl (buildWord k) []

/-- Error taxonomy of the embedded operations.  The source raises ValueError
in every case; the constructors keep the distinguishing payloads, and
exhausted carries the offending context exactly as the message
"No transitions found for prefix ..." does. -/
inductive GenErr where
  | invalidState : GenErr
  | exhausted : Word → GenErr
  | zeroTotal : Word → GenErr
deriving DecidableEq, Repr

/-- MarkovChain.build_transition_table (markov_chain.py lines 118-137): the
wordlist attribute starts as None, and "if not self.wordlist" raises for both
None and the empty set; otherwise the table is built. -/
def build_transition_table (k : Nat) (wl : Option (List Word)) :
    Except GenErr TransTable :=
  match wl with
  | none => Except.error GenErr.invalidState
  | some ws =>
      if ws.isEmpty then Except.error GenErr.invalidState
      else Except.ok (buildTable k ws)

/-- MarkovChainGenerator._build_transitions_dict (generator.py lines 59-80):
there is no validation whatsoever, the build cannot fail; on an empty wordlist
it returns an empty table. -/
def buildTransitionsDict (k : Nat) (ws : List Word) : Except GenErr TransTable :=
  Except.ok (buildTable k ws)

/-! ## Lookup helpers -/

/-- Plain first-match association-list lookup (dict lookup without insertion,
used to state invariants). -/
def tableFind? : TransTable → Word → Option CharCounter
  | [], _ => none
  | (q, cnt) :: rest, p => if q = p then some cnt else tableFind? rest p

/-- Lookup result with a default empty counter. -/
def findCnt (t : TransTable) (p : Word) : CharCounter :=
  (tableFind? t p).getD []

/-- Subscript lookup on a defaultdict(Counter): a missing key is inserted at
the end of the dict with an empty counter; the (counter, updated table) pair
is returned. -/
def ddGet (t : TransTable) (p : Word) : CharCounter × TransTable :=
  match tableFind? t p with
  | some cnt => (cnt, t)
  | none => ([], t ++ [(p, [])])

/-- Counter subscript read: count of a character, 0 when absent. -/
def countOf : CharCounter → Char → Nat
  | [], _ => 0
  | (d, n) :: rest, c => if d = c then n else countOf rest c

/-- Total weight of a counter (sum of Counter.values()). -/
def counterTotal (cnt : CharCounter) : Nat :=
  (cnt.map Prod.snd).sum

/-- Cumulative-weight selection as performed by
random.choices(possible_chars, weights=probabilities): walk the entries,
subtracting weights until the sample falls inside one.  Returns none when the
sample is at least the total weight (in particular on zero total, where the
source raises). -/
def pickWeighted : CharCounter → Nat → Option Char
  | [], _ => none
  | (c, w) :: rest, r => if r < w then some c else pickWeighted rest (r - w)

/-- Counter.elements(): each character repeated as many times as its count. -/
def elementsOf (cnt : CharCounter) : List Char :=
  (cnt.map (fun e => List.replicate e.2 e.1)).flatten

/-- Python slice s[-order:]: the last order characters; for order 0 the slice
s[-0:] is s[0:], the whole string. -/
def lastK (k : Nat) (buf : Word) : Word :=
  if k = 0 then buf else buf.drop (buf.length - k)

/-! ## Generation -/

/-- The sampling loop of MarkovChain.generate_string (markov_chain.py lines
159-182): while the buffer is shorter than length + order, look the last
order characters up in the defaultdict (which inserts an empty counter on a
miss), fail if the counter has no keys, otherwise draw one character by
cumulative weights and append it.  The table travels with the result because
the defaultdict lookup can extend it. -/
def genLoop (k : Nat) (length : Int) (rng : Nat → Nat) (t : TransTable)
    (buf : Word) (step : Nat) : Except GenErr Word × TransTable :=
  if _h : (buf.length : Int) < length + k then
    let p := lastK k buf
    let cnt := (ddGet t p).1
    let t2 := (ddGet t p).2
    if cnt = [] then (Except.error (GenErr.exhausted p), t2)
    else
      match pickWeighted cnt (rng step % counterTotal cnt) with
      | none => (Except.error (GenErr.zeroTotal p), t2)
      | some c => genLoop k length rng t2 (buf ++ [c]) (step + 1)
  else (Except.ok buf, t)
termination_by (length + k).toNat - buf.length
decreasing_by simp only [List.length_append, List.length_cons, List.length_nil]; omega

/-- MarkovChain.generate_string (markov_chain.py lines 139-187): reject a
missing or empty table ("if not self.transition_table"), run the sampling
loop from a buffer of order-many start markers, and strip the markers from a
successful buffer. -/
def generate_string (k : Nat) (t : TransTable) (length : Int) (rng : Nat → Nat) :
    Except GenErr Word × TransTable :=
  if t = [] then (Except.error GenErr.invalidState, t)
  else
    match genLoop k length rng t (List.replicate k '^') 0 with
    | (Except.ok buf, t2) => (Except.ok (buf.drop k), t2)
    | (Except.error e, t2) => (Except.error e, t2)

/-- The sampling loop of MarkovChainGenerator.generate_word (generator.py
lines 96-114): same shape as genLoop, but the choices are the expanded
Counter.elements() list and the draw is a uniform secrets.choice index into
it; there is no table-presence check in the source. -/
def genWordLoop (k : Nat) (length : Int) (rng : Nat → Nat) (t : TransTable)
    (buf : Word) (step : Nat) : Except GenErr Word × TransTable :=
  if _h : (buf.length : Int) < length + k then
    let p := lastK k buf
    let cnt := (ddGet t p).1
    let t2 := (ddGet t p).2
    let choices := elementsOf cnt
    if choices = [] then (Except.error (GenErr.exhausted p), t2)
    else genWordLoop k length rng t2
      (buf ++ [choices.getD (rng step % choices.length) '^']) (step + 1)
  else (Except.ok buf, t)
termination_by (length + k).toNat - buf.length
decreasing_by simp only [List.length_append, List.length_cons, List.length_nil]; omega

/-- MarkovChainGenerator.generate_word (generator.py lines 82-121): run the
sampling loop from a buffer of order-many start markers and strip the markers
from a successful buffer. -/
def generate_word (k : Nat) (t : TransTable) (length : Int) (rng : Nat → Nat) :
    Except GenErr Word × TransTable :=
  match genWordLoop k length rng t (List.replicate k '^') 0 with
  | (Except.ok buf, t2) => (Except.ok (buf.drop k), t2)
  | (Except.error e, t2) => (Except.error e, t2)

/-! ## Retry loop of main.generate -/

/-- Outcome of one section of main.generate: a non-dictionary word, the
exhaustion ValueError raised at attempt 10, or an error propagated from
generate_word. -/
inductive RetryResult where
  | success : Word → RetryResult
  | generationExhausted : RetryResult
  | genError : GenErr → RetryResult
deriving DecidableEq, Repr

/-- The attempt loop of main.generate (main.py lines 27-36): for attempt in
range(11), raise at attempt 10, otherwise generate a word, retry if it is in
the wordlist and break if not.  The table travels because generate_word can
extend the defaultdict.  Falling off the end of the attempt list (impossible
for range(11)) yields none. -/
def retryGo (k : Nat) (wl : List Word) (length : Int) (rngs : Nat → Nat → Nat) :
    List Nat → TransTable → Option (RetryResult × TransTable)
  | [], _ => none
  | attempt :: rest, t =>
      if attempt = 10 then some (RetryResult.generationExhausted, t)
      else
        match generate_word k t length (rngs attempt) with
        | (Except.ok word, t2) =>
            if word ∈ wl then retryGo k wl length rngs rest t2
            else some (RetryResult.success word, t2)
        | (Except.error e, t2) => some (RetryResult.genError e, t2)

/-- One section of main.generate: the attempt loop over range(11). -/
def retrySection (k : Nat) (wl : List Word) (length : Int)
    (rngs : Nat → Nat → Nat) (t : TransTable) : Option (RetryResult × TransTable) :=
  retryGo k wl length rngs (List.range 11) t

/-! ## Specification-side counting function -/

/-- The number of occurrences of a (context, next character) pair over the
padded training words; the built table is proven to realise exactly these
counts. -/
def transCount (k : Nat) (ws : List Word) (p : Word) (c : Char) : Nat :=
  (ws.map (fun w =>
    ((List.range ((padWord k w).length - k)).filter
      (fun i => winPfx k w i = p ∧ winNext k w i = c)).length)).sum

/-- Every count in a counter is positive (Counter cells are only ever
incremented). -/
def counterPos (cnt : CharCounter) : Prop :=
  ∀ e ∈ cnt, 0 < e.2

/-- Well-formedness of a built table: every stored counter is nonempty with
positive counts. -/
def tableWF (t : TransTable) : Prop :=
  ∀ e ∈ t, e.2 ≠ [] ∧ counterPos e.2

/-! ## Character lemmas: the ASCII fragment of str.lower on alphabetic input -/

theorem char_le_iff_toNat (a x : Char) : a ≤ x ↔ a.toNat ≤ x.toNat := by
  rw [Char.le_def, UInt32.le_def, BitVec.le_def]; rfl

theorem char_toNat_ofNat_valid (n : Nat) (h : n < 0xd800) : (Char.ofNat n).toNat = n := by
  rw [Char.ofNat, dif_pos (Or.inl h)]
  rfl

/-- Lowercasing an alphabetic ASCII character lands in the range a-z. -/
theorem pyCharLower_ascii {c : Char} (hc : pyCharIsAlpha c = true)
    (ha : c.toNat < 128) : 'a' ≤ pyCharLower c ∧ pyCharLower c ≤ 'z' := by
  rw [pyCharIsAlpha, decide_eq_true_eq] at hc
  rw [char_le_iff_toNat, char_le_iff_toNat]
  show 97 ≤ (pyCharLower c).toNat ∧ (pyCharLower c).toNat ≤ 122
  rw [pyCharLower]
  rcases hc with h | h | h | h | h | h | h | h
  · rw [if_pos (Or.inl h), char_toNat_ofNat_valid _ (by omega)]
    omega
  · rw [if_neg (by omega)]
    omega
  all_goals exact absurd ha (by omega)

/-- Lowercasing an alphabetic character never produces the start marker. -/
theorem pyCharLower_ne_marker {c : Char} (hc : pyCharIsAlpha c = true) :
    pyCharLower c ≠ '^' := by
  rw [pyCharIsAlpha, decide_eq_true_eq] at hc
  intro he
  have h94 : (pyCharLower c).toNat = 94 := by
    rw [he]
    rfl
  rw [pyCharLower] at h94
  by_cases hup : (65 ≤ c.toNat ∧ c.toNat ≤ 90) ∨ (0xC0 ≤ c.toNat ∧ c.toNat ≤ 0xD6) ∨
      (0xD8 ≤ c.toNat ∧ c.toNat ≤ 0xDE)
  · rw [if_pos hup, char_toNat_ofNat_valid _ (by omega)] at h94
    omega
  · rw [if_neg hup] at h94
    omega

/-- A character in the range a-z is not the start marker. -/
theorem ne_marker_of_lowercase {c : Char} (h1 : 'a' ≤ c) (h2 : c ≤ 'z') : c ≠ '^' := by
  intro hc
  subst hc
  exact absurd h1 (by decide)

/-! ## Loader lemmas -/

theorem mem_setInsert (v w : Word) (s : List Word) :
    v ∈ setInsert s w ↔ v ∈ s ∨ v = w := by
  unfold setInsert
  by_cases h : w ∈ s
  · rw [if_pos h]
    constructor
    · exact Or.inl
    · rintro (hv | rfl) <;> assumption
  · rw [if_neg h]
    simp

theorem nodup_setInsert (w : Word) (s : List Word) (h : s.Nodup) :
    (setInsert s w).Nodup := by
  unfold setInsert
  by_cases hm : w ∈ s
  · rwa [if_pos hm]
  · rw [if_neg hm]
    refine List.Nodup.append h (List.nodup_singleton w) ?_
    intro a ha hb
    rw [List.mem_singleton] at hb
    subst hb
    exact hm ha

theorem mem_load_foldl (lines : List Word) (s : List Word) (v : Word) :
    v ∈ lines.foldl
        (fun s word => if pyIsAlpha word then setInsert s (lowerWord word) else s) s ↔
      v ∈ s ∨ ∃ w ∈ lines, pyIsAlpha w = true ∧ lowerWord w = v := by
  induction lines generalizing s with
  | nil => simp
  | cons x xs ih =>
    rw [List.foldl_cons, ih]
    by_cases hx : pyIsAlpha x
    · rw [if_pos hx, mem_setInsert]
      simp only [List.mem_cons]
      constructor
      · rintro ((hv | rfl) | ⟨w, hw1, hw2, hw3⟩)
        · exact Or.inl hv
        · exact Or.inr ⟨x, Or.inl rfl, hx, rfl⟩
        · exact Or.inr ⟨w, Or.inr hw1, hw2, hw3⟩
      · rintro (hv | ⟨w, (rfl | hw1), hw2, hw3⟩)
        · exact Or.inl (Or.inl hv)
        · exact Or.inl (Or.inr hw3.symm)
        · exact Or.inr ⟨w, hw1, hw2, hw3⟩
    · rw [if_neg hx]
      simp only [List.mem_cons]
      constructor
      · rintro (hv | ⟨w, hw1, hw2, hw3⟩)
        · exact Or.inl hv
        · exact Or.inr ⟨w, Or.inr hw1, hw2, hw3⟩
      · rintro (hv | ⟨w, (rfl | hw1), hw2, hw3⟩)
        · exact Or.inl hv
        · exact absurd hw2 hx
        · exact Or.inr ⟨w, hw1, hw2, hw3⟩

/-- Membership in the set produced by MarkovChain.load_wordlist: exactly the
lowercased forms of the alphabetic lines. -/
theorem mem_load_wordlist (lines : List Word) (v : Word) :
    v ∈ load_wordlist lines ↔ ∃ w ∈ lines, pyIsAlpha w = true ∧ lowerWord w = v := by
  rw [load_wordlist, mem_load_foldl]
  simp

theorem nodup_load_foldl (lines : List Word) (s : List Word) (h : s.Nodup) :
    (lines.foldl
      (fun s word => if pyIsAlpha word then setInsert s (lowerWord word) else s) s).Nodup := by
  induction lines generalizing s with
  | nil => exact h
  | cons x xs ih =>
    rw [List.foldl_cons]
    by_cases hx : pyIsAlpha x
    · rw [if_pos hx]
      exact ih _ (nodup_setInsert _ _ h)
    · rw [if_neg hx]
      exact ih _ h

theorem nodup_load_wordlist (lines : List Word) : (load_wordlist lines).Nodup :=
  nodup_load_foldl lines [] List.nodup_nil

/-- A lowercased alphabetic line is nonempty and free of start markers. -/
theorem lowerWord_shape {w : Word} (h : pyIsAlpha w = true) :
    lowerWord w ≠ [] ∧ ∀ c ∈ lowerWord w, c ≠ '^' := by
  rw [pyIsAlpha, Bool.and_eq_true, List.all_eq_true] at h
  obtain ⟨hne, hall⟩ := h
  constructor
  · simp only [lowerWord, ne_eq, List.map_eq_nil_iff]
    intro hw
    rw [hw] at hne
    simp at hne
  · intro c hc
    rw [lowerWord, List.mem_map] at hc
    obtain ⟨d, hd, rfl⟩ := hc
    exact pyCharLower_ne_marker (hall d hd)

/-- A lowercased alphabetic line of ASCII characters consists of characters
a-z. -/
theorem lowerWord_ascii {w : Word} (h : pyIsAlpha w = true)
    (ha : ∀ c ∈ w, c.toNat < 128) :
    ∀ c ∈ lowerWord w, 'a' ≤ c ∧ c ≤ 'z' := by
  rw [pyIsAlpha, Bool.and_eq_true, List.all_eq_true] at h
  intro c hc
  rw [lowerWord, List.mem_map] at hc
  obtain ⟨d, hd, rfl⟩ := hc
  exact pyCharLower_ascii (h.2 d hd) (ha d hd)

/-- Removing a non-alphabetic element does not change the alphabetic filter. -/
theorem filter_removeFirst {w : Word} (hw : ¬ pyIsAlpha w = true) (l : List Word) :
    (removeFirst l w).filter pyIsAlpha = l.filter pyIsAlpha := by
  induction l with
  | nil => rfl
  | cons x xs ih =>
    rw [removeFirst]
    by_cases hx : x = w
    · subst hx
      rw [if_pos rfl, List.filter_cons_of_neg (by simpa using hw)]
    · rw [if_neg hx]
      by_cases ha : pyIsAlpha x
      · rw [List.filter_cons_of_pos (by simpa using ha),
          List.filter_cons_of_pos (by simpa using ha), ih]
      · rw [List.filter_cons_of_neg (by simpa using ha),
          List.filter_cons_of_neg (by simpa using ha), ih]

/-- The skipping removal loop never touches the words the final filter keeps. -/
theorem filter_buggyClean (l : List Word) (i : Nat) :
    (buggyClean l i).filter pyIsAlpha = l.filter pyIsAlpha := by
  induction l, i using buggyClean.induct with
  | case1 l i h word halpha ih =>
    rw [buggyClean, dif_pos h]
    simp only [halpha, if_true]
    exact ih
  | case2 l i h word halpha ih =>
    rw [buggyClean, dif_pos h]
    simp only [halpha, Bool.false_eq_true, if_false]
    rw [ih, filter_removeFirst halpha]
  | case3 l i h =>
    rw [buggyClean, dif_neg h]

/-- The generator's loader is filter-then-lowercase despite the buggy
mid-iteration removal: the final list comprehension re-filters. -/
theorem loadWordlistFromFile_eq (lines : List Word) :
    loadWordlistFromFile lines = (lines.filter pyIsAlpha).map lowerWord := by
  rw [loadWordlistFromFile, filter_buggyClean]

/-! ## Counter and table lemmas -/

theorem countOf_counterIncr (cnt : CharCounter) (c d : Char) :
    countOf (counterIncr cnt c) d =
      countOf cnt d + if c = d then 1 else 0 := by
  induction cnt with
  | nil =>
    simp only [counterIncr, countOf]
    split_ifs <;> omega
  | cons e rest ih =>
    obtain ⟨a, n⟩ := e
    by_cases hac : a = c
    · rw [counterIncr, if_pos hac, countOf, countOf]
      subst hac
      split_ifs <;> omega
    · rw [counterIncr, if_neg hac, countOf, countOf, ih]
      split_ifs with h1 h2
      · exact absurd (h1.trans h2.symm) hac
      · omega
      · omega
      · omega

theorem counterIncr_ne_nil (cnt : CharCounter) (c : Char) : counterIncr cnt c ≠ [] := by
  cases cnt with
  | nil => simp [counterIncr]
  | cons e rest =>
    obtain ⟨a, n⟩ := e
    rw [counterIncr]
    by_cases h : a = c
    · simp [h]
    · simp [h]

theorem counterPos_incr {cnt : CharCounter} (h : counterPos cnt) (c : Char) :
    counterPos (counterIncr cnt c) := by
  induction cnt with
  | nil =>
    intro e he
    rw [counterIncr, List.mem_singleton] at he
    subst he
    exact Nat.one_pos
  | cons e0 rest ih =>
    obtain ⟨a, n⟩ := e0
    rw [counterIncr]
    by_cases ha : a = c
    · rw [if_pos ha]
      intro e he
      rcases List.mem_cons.mp he with rfl | he
      · have := h (a, n) (List.mem_cons_self _ _)
        simp only at this ⊢
        omega
      · exact h e (List.mem_cons_of_mem _ he)
    · rw [if_neg ha]
      intro e he
      rcases List.mem_cons.mp he with rfl | he
      · exact h (a, n) (List.mem_cons_self _ _)
      · exact ih (fun e' he' => h e' (List.mem_cons_of_mem _ he')) e he

theorem findCnt_nil (p : Word) : findCnt [] p = [] := rfl

theorem findCnt_cons (q : Word) (cnt : CharCounter) (rest : TransTable) (p : Word) :
    findCnt ((q, cnt) :: rest) p = if q = p then cnt else findCnt rest p := by
  rw [findCnt, tableFind?]
  by_cases h : q = p
  · rw [if_pos h, if_pos h]
    rfl
  · rw [if_neg h, if_neg h]
    rfl

theorem countOf_findCnt_tableIncr (t : TransTable) (q p : Word) (c d : Char) :
    countOf (findCnt (tableIncr t q c) p) d =
      countOf (findCnt t p) d + if q = p ∧ c = d then 1 else 0 := by
  induction t with
  | nil =>
    rw [tableIncr, findCnt_nil, findCnt_cons]
    by_cases hq : q = p
    · rw [if_pos hq]
      simp only [countOf]
      split_ifs <;> simp_all
    · rw [if_neg hq]
      simp only [countOf]
      rw [if_neg (by tauto)]
  | cons e rest ih =>
    obtain ⟨r, cnt⟩ := e
    by_cases hr : r = q
    · rw [tableIncr, if_pos hr, findCnt_cons, findCnt_cons]
      by_cases hp : r = p
      · rw [if_pos hp, if_pos hp, countOf_counterIncr]
        have hqp : q = p := hr.symm.trans hp
        by_cases hc : c = d
        · rw [if_pos hc, if_pos ⟨hqp, hc⟩]
        · rw [if_neg hc, if_neg (by tauto)]
      · rw [if_neg hp, if_neg hp, if_neg (by rintro ⟨h1, -⟩; exact hp (hr.trans h1))]
        omega
    · rw [tableIncr, if_neg hr, findCnt_cons, findCnt_cons]
      by_cases hp : r = p
      · rw [if_pos hp, if_pos hp, if_neg (by rintro ⟨h1, -⟩; exact hr (hp.trans h1.symm))]
        omega
      · rw [if_neg hp, if_neg hp, ih]

theorem countOf_findCnt_foldl (f : Nat → Word) (g : Nat → Char) (p : Word) (c : Char)
    (l : List Nat) (t : TransTable) :
    countOf (findCnt (l.foldl (fun t i => tableIncr t (f i) (g i)) t) p) c =
      countOf (findCnt t p) c + (l.filter (fun i => f i = p ∧ g i = c)).length := by
  induction l generalizing t with
  | nil => simp
  | cons i l ih =>
    rw [List.foldl_cons, ih, countOf_findCnt_tableIncr, List.filter_cons]
    by_cases h : f i = p ∧ g i = c
    · rw [if_pos h, if_pos (decide_eq_true h), List.length_cons]
      omega
    · rw [if_neg h, if_neg (by simp [h]), Nat.add_zero]

theorem countOf_findCnt_buildWord (k : Nat) (t : TransTable) (w : Word)
    (p : Word) (c : Char) :
    countOf (findCnt (buildWord k t w) p) c =
      countOf (findCnt t p) c +
        ((List.range ((padWord k w).length - k)).filter
          (fun i => winPfx k w i = p ∧ winNext k w i = c)).length := by
  rw [buildWord, countOf_findCnt_foldl]

theorem transCount_nil (k : Nat) (p : Word) (c : Char) : transCount k [] p c = 0 := rfl

theorem transCount_cons (k : Nat) (w : Word) (ws : List Word) (p : Word) (c : Char) :
    transCount k (w :: ws) p c =
      ((List.range ((padWord k w).length - k)).filter
        (fun i => winPfx k w i = p ∧ winNext k w i = c)).length + transCount k ws p c := by
  rw [transCount, transCount, List.map_cons, List.sum_cons]

theorem countOf_findCnt_buildTable_aux (k : Nat) (p : Word) (c : Char) :
    ∀ (ws : List Word) (t : TransTable),
      countOf (findCnt (ws.foldl (buildWord k) t) p) c =
        countOf (findCnt t p) c + transCount k ws p c := by
  intro ws
  induction ws with
  | nil =>
    intro t
    rw [List.foldl_nil, transCount_nil]
    omega
  | cons w ws ih =>
    intro t
    rw [List.foldl_cons, ih, countOf_findCnt_buildWord, transCount_cons]
    omega

/-- The built table realises exactly the window counts of the padded training
words. -/
theorem countOf_findCnt_buildTable (k : Nat) (ws : List Word) (p : Word) (c : Char) :
    countOf (findCnt (buildTable k ws) p) c = transCount k ws p c := by
  rw [buildTable, countOf_findCnt_buildTable_aux, findCnt_nil]
  simp only [countOf]
  omega

theorem keys_tableIncr (t : TransTable) (q : Word) (c : Char) (p : Word) :
    p ∈ (tableIncr t q c).map Prod.fst ↔ p ∈ t.map Prod.fst ∨ p = q := by
  induction t with
  | nil => simp [tableIncr]
  | cons e rest ih =>
    obtain ⟨r, cnt⟩ := e
    by_cases hr : r = q
    · rw [tableIncr, if_pos hr]
      subst hr
      simp only [List.map_cons, List.mem_cons]
      tauto
    · rw [tableIncr, if_neg hr]
      simp only [List.map_cons, List.mem_cons, ih]
      tauto

theorem tableFind?_eq_none_iff (t : TransTable) (p : Word) :
    tableFind? t p = none ↔ p ∉ t.map Prod.fst := by
  induction t with
  | nil => simp [tableFind?]
  | cons e rest ih =>
    obtain ⟨r, cnt⟩ := e
    rw [tableFind?]
    by_cases hr : r = p
    · rw [if_pos hr]
      simp [hr]
    · rw [if_neg hr]
      simp only [List.map_cons, List.mem_cons, ih]
      constructor
      · intro h hc
        rcases hc with hc | hc
        · exact hr hc.symm
        · exact h hc
      · intro h hc
        exact h (Or.inr hc)

theorem tableWF_tableIncr {t : TransTable} (h : tableWF t) (q : Word) (c : Char) :
    tableWF (tableIncr t q c) := by
  induction t with
  | nil =>
    intro e he
    rw [tableIncr, List.mem_singleton] at he
    subst he
    refine ⟨by simp, ?_⟩
    intro x hx
    rw [List.mem_singleton] at hx
    subst hx
    exact Nat.one_pos
  | cons e0 rest ih =>
    obtain ⟨r, cnt⟩ := e0
    have hhead := h (r, cnt) (List.mem_cons_self _ _)
    have htail : tableWF rest := fun e he => h e (List.mem_cons_of_mem _ he)
    by_cases hr : r = q
    · rw [tableIncr, if_pos hr]
      intro e he
      rcases List.mem_cons.mp he with rfl | he
      · exact ⟨counterIncr_ne_nil _ _, counterPos_incr hhead.2 c⟩
      · exact htail e he
    · rw [tableIncr, if_neg hr]
      intro e he
      rcases List.mem_cons.mp he with rfl | he
      · exact hhead
      · exact ih htail e he

theorem tableWF_foldl (f : Nat → Word) (g : Nat → Char) (l : List Nat)
    (t : TransTable) (h : tableWF t) :
    tableWF (l.foldl (fun t i => tableIncr t (f i) (g i)) t) := by
  induction l generalizing t with
  | nil => exact h
  | cons i l ih =>
    rw [List.foldl_cons]
    exact ih _ (tableWF_tableIncr h _ _)

theorem tableWF_buildWord (k : Nat) (t : TransTable) (w : Word) (h : tableWF t) :
    tableWF (buildWord k t w) :=
  tableWF_foldl _ _ _ t h

/-- Every counter of a built table is nonempty with positive counts. -/
theorem tableWF_buildTable (k : Nat) (ws : List Word) : tableWF (buildTable k ws) := by
  rw [buildTable]
  have : ∀ (l : List Word) (t : TransTable), tableWF t → tableWF (l.foldl (buildWord k) t) := by
    intro l
    induction l with
    | nil => exact fun t h => h
    | cons w l ih =>
      intro t h
      rw [List.foldl_cons]
      exact ih _ (tableWF_buildWord k t w h)
  exact this ws [] (fun e he => absurd he (List.not_mem_nil e))

theorem keys_foldl (f : Nat → Word) (g : Nat → Char) (l : List Nat)
    (t : TransTable) (p : Word) :
    p ∈ (l.foldl (fun t i => tableIncr t (f i) (g i)) t).map Prod.fst ↔
      p ∈ t.map Prod.fst ∨ ∃ i ∈ l, f i = p := by
  induction l generalizing t with
  | nil => simp
  | cons i l ih =>
    rw [List.foldl_cons, ih, keys_tableIncr]
    simp only [List.mem_cons]
    constructor
    · rintro ((hp | rfl) | ⟨j, hj, hjp⟩)
      · exact Or.inl hp
      · exact Or.inr ⟨i, Or.inl rfl, rfl⟩
      · exact Or.inr ⟨j, Or.inr hj, hjp⟩
    · rintro (hp | ⟨j, (rfl | hj), hjp⟩)
      · exact Or.inl (Or.inl hp)
      · exact Or.inl (Or.inr hjp.symm)
      · exact Or.inr ⟨j, hj, hjp⟩

theorem keys_buildWord (k : Nat) (t : TransTable) (w : Word) (p : Word) :
    p ∈ (buildWord k t w).map Prod.fst ↔
      p ∈ t.map Prod.fst ∨
        ∃ i ∈ List.range ((padWord k w).length - k), winPfx k w i = p := by
  rw [buildWord, keys_foldl]

/-- A context is a key of the built table exactly when it is the window of
some position of some padded training word. -/
theorem keys_buildTable (k : Nat) (ws : List Word) (p : Word) :
    p ∈ (buildTable k ws).map Prod.fst ↔
      ∃ w ∈ ws, ∃ i ∈ List.range ((padWord k w).length - k), winPfx k w i = p := by
  rw [buildTable]
  have : ∀ (l : List Word) (t : TransTable),
      p ∈ (l.foldl (buildWord k) t).map Prod.fst ↔
        p ∈ t.map Prod.fst ∨ ∃ w ∈ l, ∃ i ∈ List.range ((padWord k w).length - k),
          winPfx k w i = p := by
    intro l
    induction l with
    | nil => simp
    | cons w l ih =>
      intro t
      rw [List.foldl_cons, ih, keys_buildWord]
      simp only [List.mem_cons]
      constructor
      · rintro ((hp | hi) | ⟨w', hw', hi⟩)
        · exact Or.inl hp
        · exact Or.inr ⟨w, Or.inl rfl, hi⟩
        · exact Or.inr ⟨w', Or.inr hw', hi⟩
      · rintro (hp | ⟨w', (rfl | hw'), hi⟩)
        · exact Or.inl (Or.inl hp)
        · exact Or.inl (Or.inr hi)
        · exact Or.inr ⟨w', hw', hi⟩
  rw [this ws []]
  simp

theorem countOf_pos_of_mem {cnt : CharCounter} (hw : counterPos cnt)
    {c : Char} {n : Nat} (h : (c, n) ∈ cnt) : 0 < countOf cnt c := by
  induction cnt with
  | nil => cases h
  | cons e rest ih =>
    obtain ⟨a, m⟩ := e
    rw [countOf]
    by_cases ha : a = c
    · rw [if_pos ha]
      exact hw (a, m) (List.mem_cons_self _ _)
    · rw [if_neg ha]
      rcases List.mem_cons.mp h with he | he

      · cases he
        exact absurd rfl ha
      · exact ih (fun e' he' => hw e' (List.mem_cons_of_mem _ he')) he

theorem countOf_nil (c : Char) : countOf [] c = 0 := rfl

theorem ne_nil_of_countOf_pos {cnt : CharCounter} {c : Char}
    (h : 0 < countOf cnt c) : cnt ≠ [] := by
  intro hc
  subst hc
  rw [countOf_nil] at h
  omega

theorem counterTotal_pos {cnt : CharCounter} (h1 : cnt ≠ []) (h2 : counterPos cnt) :
    0 < counterTotal cnt := by
  obtain ⟨e, rest, rfl⟩ := List.exists_cons_of_ne_nil h1
  have := h2 e (List.mem_cons_self _ _)
  rw [counterTotal, List.map_cons, List.sum_cons]
  omega

theorem pickWeighted_isSome (cnt : CharCounter) (r : Nat) (h : r < counterTotal cnt) :
    ∃ c, pickWeighted cnt r = some c := by
  induction cnt generalizing r with
  | nil =>
    rw [counterTotal] at h
    simp at h
  | cons e rest ih =>
    obtain ⟨a, m⟩ := e
    rw [pickWeighted]
    by_cases hr : r < m
    · exact ⟨a, if_pos hr⟩
    · rw [if_neg hr]
      refine ih (r - m) ?_
      rw [counterTotal, List.map_cons, List.sum_cons] at h
      rw [counterTotal]
      omega

theorem pickWeighted_mem {cnt : CharCounter} {r : Nat} {c : Char}
    (h : pickWeighted cnt r = some c) : ∃ n, (c, n) ∈ cnt := by
  induction cnt generalizing r with
  | nil => cases h
  | cons e rest ih =>
    obtain ⟨a, m⟩ := e
    rw [pickWeighted] at h
    by_cases hr : r < m
    · rw [if_pos hr] at h
      cases h
      exact ⟨m, List.mem_cons_self _ _⟩
    · rw [if_neg hr] at h
      obtain ⟨n, hn⟩ := ih h
      exact ⟨n, List.mem_cons_of_mem _ hn⟩

theorem mem_elementsOf {cnt : CharCounter} {c : Char} (h : c ∈ elementsOf cnt) :
    ∃ n, (c, n) ∈ cnt := by
  rw [elementsOf, List.mem_flatten] at h
  obtain ⟨l, hl, hc⟩ := h
  rw [List.mem_map] at hl
  obtain ⟨⟨a, m⟩, hm, rfl⟩ := hl
  rw [List.eq_of_mem_replicate hc]
  exact ⟨m, hm⟩

theorem elementsOf_ne_nil {cnt : CharCounter} (h1 : cnt ≠ []) (h2 : counterPos cnt) :
    elementsOf cnt ≠ [] := by
  obtain ⟨⟨a, m⟩, rest, rfl⟩ := List.exists_cons_of_ne_nil h1
  have hm := h2 (a, m) (List.mem_cons_self _ _)
  rw [elementsOf, List.map_cons]
  intro hc
  rw [List.flatten_eq_nil_iff] at hc
  have := hc (List.replicate m a) (List.mem_cons_self _ _)
  rw [List.replicate_eq_nil_iff] at this
  omega

theorem elementsOf_nil : elementsOf [] = [] := rfl

theorem getD_mem {l : List Char} {i : Nat} (h : i < l.length) (d : Char) :
    l.getD i d ∈ l := by
  rw [List.getD_eq_getElem l d h]
  exact List.getElem_mem h

theorem padWord_length (k : Nat) (w : Word) : (padWord k w).length = k + w.length := by
  rw [padWord, List.length_append, List.length_replicate]

theorem tableIncr_ne_nil (t : TransTable) (p : Word) (c : Char) :
    tableIncr t p c ≠ [] := by
  cases t with
  | nil => simp [tableIncr]
  | cons e rest =>
    obtain ⟨q, cnt⟩ := e
    rw [tableIncr]
    by_cases h : q = p
    · simp [h]
    · simp [h]

theorem foldl_tableIncr_ne_nil (f : Nat → Word) (g : Nat → Char)
    (l : List Nat) (t : TransTable) (h : t ≠ [] ∨ l ≠ []) :
    l.foldl (fun t i => tableIncr t (f i) (g i)) t ≠ [] := by
  induction l generalizing t with
  | nil =>
    rcases h with h | h
    · exact h
    · exact absurd rfl h
  | cons i l ih =>
    rw [List.foldl_cons]
    exact ih _ (Or.inl (tableIncr_ne_nil _ _ _))

theorem buildWord_ne_nil (k : Nat) (t : TransTable) (w : Word)
    (h : t ≠ [] ∨ w ≠ []) : buildWord k t w ≠ [] := by
  rw [buildWord]
  refine foldl_tableIncr_ne_nil _ _ _ _ ?_
  rcases h with h | h
  · exact Or.inl h
  · refine Or.inr ?_
    rw [ne_eq, List.range_eq_nil, padWord_length]
    have := List.length_pos.mpr h
    omega

/-- A table built from a nonempty wordlist of nonempty words is nonempty. -/
theorem buildTable_ne_nil (k : Nat) (ws : List Word) (hws : ws ≠ [])
    (hw : ∀ w ∈ ws, w ≠ []) : buildTable k ws ≠ [] := by
  rw [buildTable]
  obtain ⟨w, rest, rfl⟩ := List.exists_cons_of_ne_nil hws
  rw [List.foldl_cons]
  have hne : buildWord k [] w ≠ [] :=
    buildWord_ne_nil k [] w (Or.inr (hw w (List.mem_cons_self _ _)))
  have : ∀ (l : List Word) (t : TransTable), t ≠ [] → l.foldl (buildWord k) t ≠ [] := by
    intro l
    induction l with
    | nil => exact fun t h => h
    | cons x l ih =>
      intro t h
      rw [List.foldl_cons]
      exact ih _ (buildWord_ne_nil k t x (Or.inl h))
  exact this rest _ hne

/-! ## Lookup and generation-step lemmas -/

theorem ddGet_some {t : TransTable} {p : Word} {cnt : CharCounter}
    (h : tableFind? t p = some cnt) : ddGet t p = (cnt, t) := by
  rw [ddGet, h]

theorem ddGet_none {t : TransTable} {p : Word} (h : tableFind? t p = none) :
    ddGet t p = ([], t ++ [(p, [])]) := by
  rw [ddGet, h]

theorem findCnt_eq_of_some {t : TransTable} {p : Word} {cnt : CharCounter}
    (h : tableFind? t p = some cnt) : findCnt t p = cnt := by
  rw [findCnt, h]
  rfl

theorem findCnt_eq_of_none {t : TransTable} {p : Word} (h : tableFind? t p = none) :
    findCnt t p = [] := by
  rw [findCnt, h]
  rfl

theorem tableFind?_some_mem {t : TransTable} {p : Word} {cnt : CharCounter}
    (h : tableFind? t p = some cnt) : (p, cnt) ∈ t := by
  induction t with
  | nil => cases h
  | cons e rest ih =>
    obtain ⟨q, cnt'⟩ := e
    rw [tableFind?] at h
    by_cases hq : q = p
    · rw [if_pos hq] at h
      cases h
      subst hq
      exact List.mem_cons_self _ _
    · rw [if_neg hq] at h
      exact List.mem_cons_of_mem _ (ih h)

theorem genLoop_exit {k : Nat} {length : Int} (rng : Nat → Nat) (t : TransTable)
    (buf : Word) (step : Nat) (hge : ¬ (buf.length : Int) < length + k) :
    genLoop k length rng t buf step = (Except.ok buf, t) := by
  rw [genLoop, dif_neg hge]

theorem genLoop_step_miss {k : Nat} {length : Int} (rng : Nat → Nat) {t : TransTable}
    {buf : Word} (step : Nat) (hlt : (buf.length : Int) < length + k)
    (hfind : tableFind? t (lastK k buf) = none) :
    genLoop k length rng t buf step =
      (Except.error (GenErr.exhausted (lastK k buf)), t ++ [(lastK k buf, [])]) := by
  rw [genLoop, dif_pos hlt]
  simp only [ddGet, hfind, if_true]

theorem genLoop_step_hit_empty {k : Nat} {length : Int} (rng : Nat → Nat) {t : TransTable}
    {buf : Word} (step : Nat) (hlt : (buf.length : Int) < length + k)
    (hfind : tableFind? t (lastK k buf) = some []) :
    genLoop k length rng t buf step =
      (Except.error (GenErr.exhausted (lastK k buf)), t) := by
  rw [genLoop, dif_pos hlt]
  simp only [ddGet, hfind, if_true]

theorem genLoop_step_hit_none {k : Nat} {length : Int} {rng : Nat → Nat} {t : TransTable}
    {buf : Word} {step : Nat} {cnt : CharCounter} (hlt : (buf.length : Int) < length + k)
    (hfind : tableFind? t (lastK k buf) = some cnt) (hcnt : cnt ≠ [])
    (hpick : pickWeighted cnt (rng step % counterTotal cnt) = none) :
    genLoop k length rng t buf step =
      (Except.error (GenErr.zeroTotal (lastK k buf)), t) := by
  rw [genLoop, dif_pos hlt]
  simp only [ddGet, hfind, hcnt, if_false, hpick]

theorem genLoop_step_hit_some {k : Nat} {length : Int} {rng : Nat → Nat} {t : TransTable}
    {buf : Word} {step : Nat} {cnt : CharCounter} {c : Char}
    (hlt : (buf.length : Int) < length + k)
    (hfind : tableFind? t (lastK k buf) = some cnt) (hcnt : cnt ≠ [])
    (hpick : pickWeighted cnt (rng step % counterTotal cnt) = some c) :
    genLoop k length rng t buf step = genLoop k length rng t (buf ++ [c]) (step + 1) := by
  rw [genLoop, dif_pos hlt]
  simp only [ddGet, hfind, hcnt, if_false, hpick]

/-- Facts about a successful run of the markov sampling loop: the table is
unchanged, the buffer grows to exactly the target length, and every appended
character has a positive count under some context of the table. -/
theorem genLoop_ok {k : Nat} {length : Int} {rng : Nat → Nat} :
    ∀ (n : Nat) (t : TransTable) (buf : Word) (step : Nat),
      n = (length + k).toNat - buf.length →
      ∀ out t2, genLoop k length rng t buf step = (Except.ok out, t2) → tableWF t →
        t2 = t ∧ out.length = max buf.length (length + k).toNat ∧
          ∃ rest, out = buf ++ rest ∧
            ∀ c ∈ rest, ∃ p, 0 < countOf (findCnt t p) c := by
  intro n
  induction n using Nat.strong_induction_on with
  | _ n ih =>
    intro t buf step hn out t2 hrun hwf
    by_cases hlt : (buf.length : Int) < length + k
    · rcases hfind : tableFind? t (lastK k buf) with _ | cnt
      · rw [genLoop_step_miss rng step hlt hfind] at hrun
        simp at hrun
      · have hmem := tableFind?_some_mem hfind
        have hcnt : cnt ≠ [] := (hwf _ hmem).1
        have hpos : counterPos cnt := (hwf _ hmem).2
        have htot : 0 < counterTotal cnt := counterTotal_pos hcnt hpos
        obtain ⟨c, hpick⟩ :=
          pickWeighted_isSome cnt (rng step % counterTotal cnt) (Nat.mod_lt _ htot)
        rw [genLoop_step_hit_some hlt hfind hcnt hpick] at hrun
        have hdec : (length + (k : Int)).toNat - (buf ++ [c]).length < n := by
          rw [List.length_append, List.length_singleton]
          omega
        obtain ⟨h1, h2, rest, hrest, hchars⟩ :=
          ih _ hdec t (buf ++ [c]) (step + 1) rfl out t2 hrun hwf
        refine ⟨h1, ?_, c :: rest, by simpa using hrest, ?_⟩
        · rw [h2, List.length_append, List.length_singleton]
          omega
        · intro d hd
          rcases List.mem_cons.mp hd with rfl | hd
          · obtain ⟨m, hm⟩ := pickWeighted_mem hpick
            exact ⟨lastK k buf, by
              rw [findCnt_eq_of_some hfind]
              exact countOf_pos_of_mem hpos hm⟩
          · exact hchars d hd
    · rw [genLoop_exit rng t buf step hlt] at hrun
      simp only [Prod.mk.injEq, Except.ok.injEq] at hrun
      obtain ⟨rfl, rfl⟩ := hrun
      refine ⟨rfl, by omega, [], (List.append_nil buf).symm, ?_⟩
      intro d hd
      cases hd

/-- Facts about a failing run of the markov sampling loop over a well-formed
table: the error is always the exhausted one, it names a context that is
absent from the table, and the defaultdict lookup has appended exactly that
context with an empty counter. -/
theorem genLoop_err {k : Nat} {length : Int} {rng : Nat → Nat} :
    ∀ (n : Nat) (t : TransTable) (buf : Word) (step : Nat),
      n = (length + k).toNat - buf.length →
      ∀ e t2, genLoop k length rng t buf step = (Except.error e, t2) → tableWF t →
        ∃ p, e = GenErr.exhausted p ∧ tableFind? t p = none ∧ t2 = t ++ [(p, [])] := by
  intro n
  induction n using Nat.strong_induction_on with
  | _ n ih =>
    intro t buf step hn e t2 hrun hwf
    by_cases hlt : (buf.length : Int) < length + k
    · rcases hfind : tableFind? t (lastK k buf) with _ | cnt
      · rw [genLoop_step_miss rng step hlt hfind] at hrun
        simp only [Prod.mk.injEq, Except.error.injEq] at hrun
        obtain ⟨rfl, rfl⟩ := hrun
        exact ⟨lastK k buf, rfl, hfind, rfl⟩
      · have hmem := tableFind?_some_mem hfind
        have hcnt : cnt ≠ [] := (hwf _ hmem).1
        have hpos : counterPos cnt := (hwf _ hmem).2
        have htot : 0 < counterTotal cnt := counterTotal_pos hcnt hpos
        obtain ⟨c, hpick⟩ :=
          pickWeighted_isSome cnt (rng step % counterTotal cnt) (Nat.mod_lt _ htot)
        rw [genLoop_step_hit_some hlt hfind hcnt hpick] at hrun
        have hdec : (length + (k : Int)).toNat - (buf ++ [c]).length < n := by
          rw [List.length_append, List.length_singleton]
          omega
        exact ih _ hdec t (buf ++ [c]) (step + 1) rfl e t2 hrun hwf
    · rw [genLoop_exit rng t buf step hlt] at hrun
      simp at hrun

/-- The markov sampling loop consumes at most one random sample per drawn
character: two random streams that agree on the first target-many draw
indices produce identical runs. -/
theorem genLoop_agree {k : Nat} {length : Int} :
    ∀ (n : Nat) (t : TransTable) (buf : Word) (step : Nat),
      n = (length + k).toNat - buf.length →
      ∀ rng rng', (∀ i, step ≤ i → i < step + n → rng i = rng' i) →
        genLoop k length rng t buf step = genLoop k length rng' t buf step := by
  intro n
  induction n using Nat.strong_induction_on with
  | _ n ih =>
    intro t buf step hn rng rng' hag
    by_cases hlt : (buf.length : Int) < length + k
    · have hstep : rng step = rng' step := hag step le_rfl (by omega)
      rcases hfind : tableFind? t (lastK k buf) with _ | cnt
      · rw [genLoop_step_miss rng step hlt hfind, genLoop_step_miss rng' step hlt hfind]
      · by_cases hcnt : cnt = []
        · subst hcnt
          rw [genLoop_step_hit_empty rng step hlt hfind,
            genLoop_step_hit_empty rng' step hlt hfind]
        · rcases hpick : pickWeighted cnt (rng step % counterTotal cnt) with _ | c
          · rw [genLoop_step_hit_none hlt hfind hcnt hpick,
              genLoop_step_hit_none hlt hfind hcnt (by rwa [← hstep])]
          · rw [genLoop_step_hit_some hlt hfind hcnt hpick,
              genLoop_step_hit_some hlt hfind hcnt
                (show pickWeighted cnt (rng' step % counterTotal cnt) = some c by
                  rwa [← hstep])]
            refine ih _ ?_ t (buf ++ [c]) (step + 1) rfl rng rng'
              (fun i h1 h2 => hag i (by omega) ?_)
            · rw [List.length_append, List.length_singleton]
              omega
            · rw [List.length_append, List.length_singleton] at h2
              omega
    · rw [genLoop_exit rng t buf step hlt, genLoop_exit rng' t buf step hlt]

/-! ## Step lemmas for the generator.py sampling loop -/

theorem genWordLoop_exit {k : Nat} {length : Int} (rng : Nat → Nat) (t : TransTable)
    (buf : Word) (step : Nat) (hge : ¬ (buf.length : Int) < length + k) :
    genWordLoop k length rng t buf step = (Except.ok buf, t) := by
  rw [genWordLoop, dif_neg hge]

theorem genWordLoop_step_miss {k : Nat} {length : Int} (rng : Nat → Nat)
    {t : TransTable} {buf : Word} (step : Nat) (hlt : (buf.length : Int) < length + k)
    (hfind : tableFind? t (lastK k buf) = none) :
    genWordLoop k length rng t buf step =
      (Except.error (GenErr.exhausted (lastK k buf)), t ++ [(lastK k buf, [])]) := by
  rw [genWordLoop, dif_pos hlt]
  simp only [ddGet, hfind, elementsOf_nil, if_true]

theorem genWordLoop_step_nilElems {k : Nat} {length : Int} (rng : Nat → Nat)
    {t : TransTable} {buf : Word} (step : Nat) {cnt : CharCounter}
    (hlt : (buf.length : Int) < length + k)
    (hfind : tableFind? t (lastK k buf) = some cnt) (h : elementsOf cnt = []) :
    genWordLoop k length rng t buf step =
      (Except.error (GenErr.exhausted (lastK k buf)), t) := by
  rw [genWordLoop, dif_pos hlt]
  simp only [ddGet, hfind, h, if_true]

theorem genWordLoop_step_draw {k : Nat} {length : Int} (rng : Nat → Nat)
    {t : TransTable} {buf : Word} (step : Nat) {cnt : CharCounter}
    (hlt : (buf.length : Int) < length + k)
    (hfind : tableFind? t (lastK k buf) = some cnt) (h : elementsOf cnt ≠ []) :
    genWordLoop k length rng t buf step =
      genWordLoop k length rng t
        (buf ++ [(elementsOf cnt).getD (rng step % (elementsOf cnt).length) '^'])
        (step + 1) := by
  rw [genWordLoop, dif_pos hlt]
  simp only [ddGet, hfind, h, if_false]

/-- Facts about a successful run of the generator.py sampling loop. -/
theorem genWordLoop_ok {k : Nat} {length : Int} {rng : Nat → Nat} :
    ∀ (n : Nat) (t : TransTable) (buf : Word) (step : Nat),
      n = (length + k).toNat - buf.length →
      ∀ out t2, genWordLoop k length rng t buf step = (Except.ok out, t2) → tableWF t →
        t2 = t ∧ out.length = max buf.length (length + k).toNat ∧
          ∃ rest, out = buf ++ rest ∧
            ∀ c ∈ rest, ∃ p, 0 < countOf (findCnt t p) c := by
  intro n
  induction n using Nat.strong_induction_on with
  | _ n ih =>
    intro t buf step hn out t2 hrun hwf
    by_cases hlt : (buf.length : Int) < length + k
    · rcases hfind : tableFind? t (lastK k buf) with _ | cnt
      · rw [genWordLoop_step_miss rng step hlt hfind] at hrun
        simp at hrun
      · have hmem := tableFind?_some_mem hfind
        have hcnt : cnt ≠ [] := (hwf _ hmem).1
        have hpos : counterPos cnt := (hwf _ hmem).2
        have helems : elementsOf cnt ≠ [] := elementsOf_ne_nil hcnt hpos
        rw [genWordLoop_step_draw rng step hlt hfind helems] at hrun
        set c := (elementsOf cnt).getD (rng step % (elementsOf cnt).length) '^' with hc
        have hdec : (length + (k : Int)).toNat - (buf ++ [c]).length < n := by
          rw [List.length_append, List.length_singleton]
          omega
        obtain ⟨h1, h2, rest, hrest, hchars⟩ :=
          ih _ hdec t (buf ++ [c]) (step + 1) rfl out t2 hrun hwf
        refine ⟨h1, ?_, c :: rest, by simpa using hrest, ?_⟩
        · rw [h2, List.length_append, List.length_singleton]
          omega
        · intro d hd
          rcases List.mem_cons.mp hd with rfl | hd
          · have hcm : c ∈ elementsOf cnt := by
              rw [hc]
              refine getD_mem ?_ '^'
              have := List.length_pos.mpr helems
              exact Nat.mod_lt _ this
            obtain ⟨m, hm⟩ := mem_elementsOf hcm
            exact ⟨lastK k buf, by
              rw [findCnt_eq_of_some hfind]
              exact countOf_pos_of_mem hpos hm⟩
          · exact hchars d hd
    · rw [genWordLoop_exit rng t buf step hlt] at hrun
      simp only [Prod.mk.injEq, Except.ok.injEq] at hrun
      obtain ⟨rfl, rfl⟩ := hrun
      refine ⟨rfl, by omega, [], (List.append_nil buf).symm, ?_⟩
      intro d hd
      cases hd

/-- Facts about a failing run of the generator.py sampling loop over a
well-formed table. -/
theorem genWordLoop_err {k : Nat} {length : Int} {rng : Nat → Nat} :
    ∀ (n : Nat) (t : TransTable) (buf : Word) (step : Nat),
      n = (length + k).toNat - buf.length →
      ∀ e t2, genWordLoop k length rng t buf step = (Except.error e, t2) → tableWF t →
        ∃ p, e = GenErr.exhausted p ∧ tableFind? t p = none ∧ t2 = t ++ [(p, [])] := by
  intro n
  induction n using Nat.strong_induction_on with
  | _ n ih =>
    intro t buf step hn e t2 hrun hwf
    by_cases hlt : (buf.length : Int) < length + k
    · rcases hfind : tableFind? t (lastK k buf) with _ | cnt
      · rw [genWordLoop_step_miss rng step hlt hfind] at hrun
        simp only [Prod.mk.injEq, Except.error.injEq] at hrun
        obtain ⟨rfl, rfl⟩ := hrun
        exact ⟨lastK k buf, rfl, hfind, rfl⟩
      · have hmem := tableFind?_some_mem hfind
        have hcnt : cnt ≠ [] := (hwf _ hmem).1
        have hpos : counterPos cnt := (hwf _ hmem).2
        have helems : elementsOf cnt ≠ [] := elementsOf_ne_nil hcnt hpos
        rw [genWordLoop_step_draw rng step hlt hfind helems] at hrun
        refine ih _ ?_ t _ (step + 1) rfl e t2 hrun hwf
        rw [List.length_append, List.length_singleton]
        omega
    · rw [genWordLoop_exit rng t buf step hlt] at hrun
      simp at hrun

/-- The generator.py sampling loop consumes at most one random sample per
drawn character. -/
theorem genWordLoop_agree {k : Nat} {length : Int} :
    ∀ (n : Nat) (t : TransTable) (buf : Word) (step : Nat),
      n = (length + k).toNat - buf.length →
      ∀ rng rng', (∀ i, step ≤ i → i < step + n → rng i = rng' i) →
        genWordLoop k length rng t buf step = genWordLoop k length rng' t buf step := by
  intro n
  induction n using Nat.strong_induction_on with
  | _ n ih =>
    intro t buf step hn rng rng' hag
    by_cases hlt : (buf.length : Int) < length + k
    · have hstep : rng step = rng' step := hag step le_rfl (by omega)
      rcases hfind : tableFind? t (lastK k buf) with _ | cnt
      · rw [genWordLoop_step_miss rng step hlt hfind,
          genWordLoop_step_miss rng' step hlt hfind]
      · by_cases helems : elementsOf cnt = []
        · rw [genWordLoop_step_nilElems rng step hlt hfind helems,
            genWordLoop_step_nilElems rng' step hlt hfind helems]
        · rw [genWordLoop_step_draw rng step hlt hfind helems,
            genWordLoop_step_draw rng' step hlt hfind helems, hstep]
          refine ih _ ?_ t _ (step + 1) rfl rng rng'
            (fun i h1 h2 => hag i (by omega) ?_)
          · rw [List.length_append, List.length_singleton]
            omega
          · rw [List.length_append, List.length_singleton] at h2
            omega
    · rw [genWordLoop_exit rng t buf step hlt, genWordLoop_exit rng' t buf step hlt]

/-! ## Retry-loop lemmas (main.generate) -/

theorem genWordLoop_ok_table {k : Nat} {length : Int} {rng : Nat → Nat} :
    ∀ (n : Nat) (t : TransTable) (buf : Word) (step : Nat),
      n = (length + k).toNat - buf.length →
      ∀ out t2, genWordLoop k length rng t buf step = (Except.ok out, t2) → t2 = t := by
  intro n
  induction n using Nat.strong_induction_on with
  | _ n ih =>
    intro t buf step hn out t2 hrun
    by_cases hlt : (buf.length : Int) < length + k
    · rcases hfind : tableFind? t (lastK k buf) with _ | cnt
      · rw [genWordLoop_step_miss rng step hlt hfind] at hrun
        simp at hrun
      · by_cases helems : elementsOf cnt = []
        · rw [genWordLoop_step_nilElems rng step hlt hfind helems] at hrun
          simp at hrun
        · rw [genWordLoop_step_draw rng step hlt hfind helems] at hrun
          refine ih _ ?_ t _ (step + 1) rfl out t2 hrun
          rw [List.length_append, List.length_singleton]
          omega
    · rw [genWordLoop_exit rng t buf step hlt] at hrun
      simp only [Prod.mk.injEq, Except.ok.injEq] at hrun
      exact hrun.2.symm

/-- A successful generate_word call leaves the table unchanged, whatever the
table: the defaultdict lookup only inserts on a miss, and a miss immediately
fails the call. -/
theorem generate_word_ok_table {k : Nat} {t : TransTable} {length : Int}
    {rng : Nat → Nat} {s : Word} {t2 : TransTable}
    (h : generate_word k t length rng = (Except.ok s, t2)) : t2 = t := by
  rw [generate_word] at h
  rcases hrun : genWordLoop k length rng t (List.replicate k '^') 0 with ⟨res, t3⟩
  rw [hrun] at h
  cases res with
  | ok out =>
    simp only [Prod.mk.injEq, Except.ok.injEq] at h
    exact h.2 ▸ genWordLoop_ok_table _ t _ 0 rfl out t3 hrun
  | error e => simp at h

theorem retryGo_cons_10 {k : Nat} {wl : List Word} {length : Int}
    {rngs : Nat → Nat → Nat} {a : Nat} (rest : List Nat) (t : TransTable)
    (ha : a = 10) :
    retryGo k wl length rngs (a :: rest) t =
      some (RetryResult.generationExhausted, t) := by
  rw [retryGo, if_pos ha]

theorem retryGo_cons_ok {k : Nat} {wl : List Word} {length : Int}
    {rngs : Nat → Nat → Nat} {a : Nat} {rest : List Nat} {t : TransTable}
    {word : Word} {t2 : TransTable} (ha : ¬ a = 10)
    (hg : generate_word k t length (rngs a) = (Except.ok word, t2)) :
    retryGo k wl length rngs (a :: rest) t =
      if word ∈ wl then retryGo k wl length rngs rest t2
      else some (RetryResult.success word, t2) := by
  rw [retryGo, if_neg ha, hg]

theorem retryGo_cons_err {k : Nat} {wl : List Word} {length : Int}
    {rngs : Nat → Nat → Nat} {a : Nat} {rest : List Nat} {t : TransTable}
    {e : GenErr} {t2 : TransTable} (ha : ¬ a = 10)
    (hg : generate_word k t length (rngs a) = (Except.error e, t2)) :
    retryGo k wl length rngs (a :: rest) t =
      some (RetryResult.genError e, t2) := by
  rw [retryGo, if_neg ha, hg]

theorem retryGo_ne_none {k : Nat} {wl : List Word} {length : Int}
    {rngs : Nat → Nat → Nat} :
    ∀ (l : List Nat) (t : TransTable), 10 ∈ l →
      retryGo k wl length rngs l t ≠ none := by
  intro l
  induction l with
  | nil =>
    intro t h
    cases h
  | cons a rest ih =>
    intro t hmem
    by_cases ha : a = 10
    · rw [retryGo_cons_10 rest t ha]
      simp
    · rcases hg : generate_word k t length (rngs a) with ⟨res, t2⟩
      cases res with
      | ok word =>
        rw [retryGo_cons_ok ha hg]
        by_cases hin : word ∈ wl
        · rw [if_pos hin]
          refine ih t2 ?_
          rcases List.mem_cons.mp hmem with h10 | h10
          · exact absurd h10.symm ha
          · exact h10
        · rw [if_neg hin]
          simp
      | error e =>
        rw [retryGo_cons_err ha hg]
        simp

theorem retryGo_success {k : Nat} {wl : List Word} {length : Int}
    {rngs : Nat → Nat → Nat} :
    ∀ (l : List Nat) (t : TransTable) (w : Word) (t2 : TransTable),
      retryGo k wl length rngs l t = some (RetryResult.success w, t2) →
      w ∉ wl ∧ t2 = t ∧
        ∃ a ∈ l, a ≠ 10 ∧ (generate_word k t length (rngs a)).1 = Except.ok w := by
  intro l
  induction l with
  | nil =>
    intro t w t2 h
    cases h
  | cons a rest ih =>
    intro t w t2 h
    by_cases ha : a = 10
    · rw [retryGo_cons_10 rest t ha] at h
      simp at h
    · rcases hg : generate_word k t length (rngs a) with ⟨res, t2'⟩
      cases res with
      | ok word =>
        rw [retryGo_cons_ok ha hg] at h
        have ht2' : t2' = t := generate_word_ok_table hg
        by_cases hin : word ∈ wl
        · rw [if_pos hin, ht2'] at h
          obtain ⟨h1, h2, a', ha', hne', hg'⟩ := ih t w t2 h
          exact ⟨h1, h2, a', List.mem_cons_of_mem _ ha', hne', hg'⟩
        · rw [if_neg hin] at h
          simp only [Option.some.injEq, Prod.mk.injEq, RetryResult.success.injEq] at h
          obtain ⟨rfl, rfl⟩ := h
          exact ⟨hin, ht2', a, List.mem_cons_self _ _, ha, by rw [hg]⟩
      | error e =>
        rw [retryGo_cons_err ha hg] at h
        simp at h

theorem retryGo_exhausted_iff {k : Nat} {wl : List Word} {length : Int}
    {rngs : Nat → Nat → Nat} :
    ∀ (m j : Nat), m = 10 - j → j ≤ 10 → ∀ t : TransTable,
      ((∃ t2, retryGo k wl length rngs (List.range' j (11 - j)) t =
          some (RetryResult.generationExhausted, t2)) ↔
        ∀ a, j ≤ a → a < 10 →
          ∃ w, (generate_word k t length (rngs a)).1 = Except.ok w ∧ w ∈ wl) ∧
      (∀ t2, retryGo k wl length rngs (List.range' j (11 - j)) t =
          some (RetryResult.generationExhausted, t2) → t2 = t) := by
  intro m
  induction m with
  | zero =>
    intro j hm hj t
    have hj10 : j = 10 := by omega
    subst hj10
    have : (11 - 10) = 1 := by omega
    rw [this, List.range'_succ, List.range'_zero, retryGo_cons_10 _ _ rfl]
    constructor
    · constructor
      · intro _ a h1 h2
        omega
      · intro _
        exact ⟨t, rfl⟩
    · intro t2 h
      simp only [Option.some.injEq, Prod.mk.injEq] at h
      exact h.2.symm
  | succ m ih =>
    intro j hm hj t
    have hjlt : j < 10 := by omega
    have hsplit : 11 - j = (10 - j) + 1 := by omega
    rw [hsplit, List.range'_succ]
    have hrest : 10 - j = 11 - (j + 1) := by omega
    rcases hg : generate_word k t length (rngs j) with ⟨res, t2'⟩
    cases res with
    | ok word =>
      rw [retryGo_cons_ok (by omega) hg]
      have ht2' : t2' = t := generate_word_ok_table hg
      rw [ht2']
      by_cases hin : word ∈ wl
      · rw [if_pos hin, hrest]
        obtain ⟨ihiff, ihtab⟩ := ih (j + 1) (by omega) (by omega) t
        constructor
        · rw [ihiff]
          constructor
          · intro hall a h1 h2
            by_cases haj : a = j
            · subst haj
              exact ⟨word, by rw [hg], hin⟩
            · exact hall a (by omega) h2
          · intro hall a h1 h2
            exact hall a (by omega) h2
        · exact ihtab
      · rw [if_neg hin]
        constructor
        · constructor
          · intro ⟨t2, hc⟩
            simp at hc
          · intro hall
            obtain ⟨w, hw1, hw2⟩ := hall j le_rfl hjlt
            rw [hg] at hw1
            simp only at hw1
            cases hw1
            exact absurd hw2 hin
        · intro t2 hc
          simp at hc
    | error e =>
      rw [retryGo_cons_err (by omega) hg]
      constructor
      · constructor
        · intro ⟨t2, hc⟩
          simp at hc
        · intro hall
          obtain ⟨w, hw1, hw2⟩ := hall j le_rfl hjlt
          rw [hg] at hw1
          simp at hw1
      · intro t2 hc
        simp at hc

/-! ## Claim C7 -/

/-- C7.  The attempt loop of main.generate is a bounded loop over attempts
0..10 that always produces an outcome (it never retries unboundedly); it
raises GenerationExhausted if and only if each of the 10 real attempts
generates a word already present in the Training Set; and on success it
returns a word generated by one of the attempts that is not present in the
Training Set. -/
theorem claim_C7 (k : Nat) (wl : List Word) (length : Int)
    (rngs : Nat → Nat → Nat) (t : TransTable) :
    (∃ r, retrySection k wl length rngs t = some r) ∧
      ((∃ t2, retrySection k wl length rngs t =
          some (RetryResult.generationExhausted, t2)) ↔
        ∀ a < 10, ∃ w, (generate_word k t length (rngs a)).1 = Except.ok w ∧ w ∈ wl) ∧
      ∀ w t2, retrySection k wl length rngs t = some (RetryResult.success w, t2) →
        w ∉ wl ∧ t2 = t ∧
          ∃ a < 10, (generate_word k t length (rngs a)).1 = Except.ok w := by
  refine ⟨?_, ?_, ?_⟩
  · rcases ho : retrySection k wl length rngs t with _ | r
    · exact absurd ho (retryGo_ne_none _ t (by decide))
    · exact ⟨r, rfl⟩
  · rw [retrySection, List.range_eq_range' 11]
    obtain ⟨hiff, -⟩ := @retryGo_exhausted_iff k wl length rngs 10 0 (by omega) (by omega) t
    rw [show (11 : Nat) = 11 - 0 by omega, hiff]
    constructor
    · intro hall a ha
      exact hall a (by omega) ha
    · intro hall a _ ha
      exact hall a ha
  · intro w t2 h
    rw [retrySection] at h
    obtain ⟨h1, h2, a, hal, hne10, hgen⟩ := retryGo_success (List.range 11) t w t2 h
    refine ⟨h1, h2, a, ?_, hgen⟩
    rw [List.mem_range] at hal
    omega

/-- C7, witness: order 1 over corpus {"ab"}, requested length 2, with a
Training Set that contains every two-letter word over a and b: every attempt
regenerates "ab", which is a known word, and the loop raises
GenerationExhausted. -/
theorem claim_C7_witness :
    ∃ t2, retrySection 1 [['a', 'b'], ['a', 'a'], ['b', 'b'], ['b', 'a']] 2
        (fun _ _ => 0) (buildTable 1 [['a', 'b']]) =
      some (RetryResult.generationExhausted, t2) := by
  have d1 : genWordLoop 1 2 (fun _ => 0) (buildTable 1 [['a', 'b']]) ['^'] 0 =
      genWordLoop 1 2 (fun _ => 0) (buildTable 1 [['a', 'b']]) ['^', 'a'] 1 :=
    genWordLoop_step_draw (fun _ => 0) 0 (by decide)
      (show tableFind? (buildTable 1 [['a', 'b']]) (lastK 1 ['^']) = some [('a', 1)] by
        decide)
      (by decide)
  have d2 : genWordLoop 1 2 (fun _ => 0) (buildTable 1 [['a', 'b']]) ['^', 'a'] 1 =
      genWordLoop 1 2 (fun _ => 0) (buildTable 1 [['a', 'b']]) ['^', 'a', 'b'] 2 :=
    genWordLoop_step_draw (fun _ => 0) 1 (by decide)
      (show tableFind? (buildTable 1 [['a', 'b']]) (lastK 1 ['^', 'a']) = some [('b', 1)] by
        decide)
      (by decide)
  have d3 : genWordLoop 1 2 (fun _ => 0) (buildTable 1 [['a', 'b']]) ['^', 'a', 'b'] 2 =
      (Except.ok ['^', 'a', 'b'], buildTable 1 [['a', 'b']]) :=
    genWordLoop_exit _ _ _ 2 (by decide)
  have hgen : generate_word 1 (buildTable 1 [['a', 'b']]) 2 (fun _ => 0) =
      (Except.ok ['a', 'b'], buildTable 1 [['a', 'b']]) := by
    rw [generate_word]
    simp only [List.replicate]
    rw [d1, d2, d3]
    rfl
  exact ((claim_C7 1 [['a', 'b'], ['a', 'a'], ['b', 'b'], ['b', 'a']] 2
      (fun _ _ => 0) (buildTable 1 [['a', 'b']])).2.1).mpr
    (fun a _ => ⟨['a', 'b'], by rw [hgen], by decide⟩)

/-! ## Window characterisation lemmas -/

theorem drop_replicate_self (k : Nat) (c : Char) : (List.replicate k c).drop k = [] := by
  induction k with
  | zero => rfl
  | succ k ih =>
    rw [List.replicate_succ, List.drop_succ_cons, ih]

theorem sum_pos_exists {l : List Nat} (h : 0 < l.sum) : ∃ x ∈ l, 0 < x := by
  induction l with
  | nil => simp at h
  | cons x l ih =>
    rw [List.sum_cons] at h
    by_cases hx : 0 < x
    · exact ⟨x, List.mem_cons_self _ _, hx⟩
    · obtain ⟨y, hy1, hy2⟩ := ih (by omega)
      exact ⟨y, List.mem_cons_of_mem _ hy1, hy2⟩

/-- A positive transition count comes from a concrete window of a concrete
training word. -/
theorem transCount_pos_exists {k : Nat} {ws : List Word} {p : Word} {c : Char}
    (h : 0 < transCount k ws p c) :
    ∃ w ∈ ws, ∃ i, i < (padWord k w).length - k ∧ winPfx k w i = p ∧ winNext k w i = c := by
  rw [transCount] at h
  obtain ⟨x, hx, hxpos⟩ := sum_pos_exists h
  rw [List.mem_map] at hx
  obtain ⟨w, hw, rfl⟩ := hx
  have hne : ((List.range ((padWord k w).length - k)).filter
      (fun i => winPfx k w i = p ∧ winNext k w i = c)) ≠ [] := by
    intro hc
    rw [hc] at hxpos
    simp at hxpos
  obtain ⟨i, hi⟩ := List.exists_mem_of_ne_nil _ hne
  rw [List.mem_filter, List.mem_range] at hi
  obtain ⟨hi1, hi2⟩ := hi
  have := of_decide_eq_true hi2
  exact ⟨w, hw, i, hi1, this.1, this.2⟩

theorem winNext_eq_getD (k : Nat) (w : Word) (i : Nat) :
    winNext k w i = w.getD i '^' := by
  induction k with
  | zero => rfl
  | succ k ih =>
    rw [winNext, padWord, List.replicate_succ, List.cons_append, Nat.add_succ,
      List.getD_cons_succ]
    rw [winNext, padWord] at ih
    exact ih

/-- Every character generated from a built table lies in some training
word. -/
theorem drawn_char_mem {k : Nat} {ws : List Word} {c : Char}
    (h : ∃ p, 0 < countOf (findCnt (buildTable k ws) p) c) :
    ∃ w ∈ ws, c ∈ w := by
  obtain ⟨p, hp⟩ := h
  rw [countOf_findCnt_buildTable] at hp
  obtain ⟨w, hw, i, hi, -, hnext⟩ := transCount_pos_exists hp
  rw [padWord_length] at hi
  have hi' : i < w.length := by omega
  rw [winNext_eq_getD] at hnext
  exact ⟨w, hw, hnext ▸ getD_mem hi' '^'⟩

/-! ## Claim C10 -/

/-- C10.  With a requested length of zero or below, the while condition
len(buffer) < length + order is false from the start: both implementations
perform no draws, raise no error, leave the table unchanged and return the
empty string.  For generate_string this needs the built table to be nonempty
(its "if not self.transition_table" guard), which holds for every table built
from a valid nonempty Training Set; generate_word has no such guard and
returns the empty string for every table whatsoever. -/
theorem claim_C10 (k : Nat) (ws : List Word) (length : Int) (rng : Nat → Nat)
    (hne : ws ≠ []) (hw : ∀ w ∈ ws, w ≠ []) (hlen : length ≤ 0) :
    generate_string k (buildTable k ws) length rng =
        (Except.ok [], buildTable k ws) ∧
      ∀ t : TransTable, generate_word k t length rng = (Except.ok [], t) := by
  have hcond : ¬ ((List.replicate k '^').length : Int) < length + k := by
    rw [List.length_replicate]
    omega
  constructor
  · rw [generate_string, if_neg (buildTable_ne_nil k ws hne hw),
      genLoop_exit rng _ _ 0 hcond]
    simp [drop_replicate_self]
  · intro t
    rw [generate_word, genWordLoop_exit rng t _ 0 hcond]
    simp [drop_replicate_self]

/-- C10, witness: length 0 on the model built from ["a"] with order 3, and on
the empty table. -/
theorem claim_C10_witness :
    (generate_string 3 (buildTable 3 [['a']]) 0 (fun _ => 0) =
        (Except.ok [], buildTable 3 [['a']]) ∧
      ∀ t : TransTable, generate_word 3 t 0 (fun _ => 0) = (Except.ok [], t)) ∧
      generate_word 3 [] 0 (fun _ => 0) = (Except.ok [], []) := by
  have h := claim_C10 3 [['a']] 0 (fun _ => 0) (by decide) (by decide) (by decide)
  exact ⟨h, h.2 []⟩

/-! ## Claim C9 -/

/-- C9.  Generation from a table built from a valid nonempty Training Set
always terminates with either a success or the ExhaustedTransitions failure
(never the other error kinds), and it consumes at most length-many random
draws: two random streams agreeing on the first length.toNat indices produce
identical outcomes, for both implementations. -/
theorem claim_C9 (k : Nat) (ws : List Word) (length : Int) (rng rng' : Nat → Nat)
    (hk : 1 ≤ k) (hne : ws ≠ []) (hw : ∀ w ∈ ws, w ≠ []) :
    ((∃ s t2, generate_string k (buildTable k ws) length rng = (Except.ok s, t2)) ∨
      (∃ p t2, generate_string k (buildTable k ws) length rng =
        (Except.error (GenErr.exhausted p), t2))) ∧
      ((∃ s t2, generate_word k (buildTable k ws) length rng = (Except.ok s, t2)) ∨
        (∃ p t2, generate_word k (buildTable k ws) length rng =
          (Except.error (GenErr.exhausted p), t2))) ∧
      ((∀ i, i < length.toNat → rng i = rng' i) →
        generate_string k (buildTable k ws) length rng =
            generate_string k (buildTable k ws) length rng' ∧
          generate_word k (buildTable k ws) length rng =
            generate_word k (buildTable k ws) length rng') := by
  have hwf := tableWF_buildTable k ws
  have hne' := buildTable_ne_nil k ws hne hw
  refine ⟨?_, ?_, ?_⟩
  · rcases hrun : genLoop k length rng (buildTable k ws) (List.replicate k '^') 0 with
      ⟨res, t3⟩
    cases res with
    | ok out =>
      exact Or.inl ⟨out.drop k, t3, by rw [generate_string, if_neg hne', hrun]⟩
    | error e =>
      obtain ⟨p, rfl, -, -⟩ := genLoop_err _ _ _ 0 rfl e t3 hrun hwf
      exact Or.inr ⟨p, t3, by rw [generate_string, if_neg hne', hrun]⟩
  · rcases hrun : genWordLoop k length rng (buildTable k ws) (List.replicate k '^') 0 with
      ⟨res, t3⟩
    cases res with
    | ok out =>
      exact Or.inl ⟨out.drop k, t3, by rw [generate_word, hrun]⟩
    | error e =>
      obtain ⟨p, rfl, -, -⟩ := genWordLoop_err _ _ _ 0 rfl e t3 hrun hwf
      exact Or.inr ⟨p, t3, by rw [generate_word, hrun]⟩
  · intro hag
    have hag' : ∀ i, 0 ≤ i →
        i < 0 + ((length + (k : Int)).toNat - (List.replicate k '^').length) →
          rng i = rng' i := by
      intro i _ h2
      rw [List.length_replicate] at h2
      exact hag i (by omega)
    constructor
    · have hg := genLoop_agree _ (buildTable k ws) (List.replicate k '^') 0 rfl rng rng' hag'
      rw [generate_string, generate_string, hg]
    · have hg := genWordLoop_agree _ (buildTable k ws) (List.replicate k '^') 0 rfl
        rng rng' hag'
      rw [generate_word, generate_word, hg]

/-- C9, witness: order 1, corpus {"ab"}, length 3 (the failing case) with two
streams agreeing on the three consumed indices. -/
theorem claim_C9_witness :
    ((∃ s t2, generate_string 1 (buildTable 1 [['a', 'b']]) 3 (fun _ => 0) =
        (Except.ok s, t2)) ∨
      (∃ p t2, generate_string 1 (buildTable 1 [['a', 'b']]) 3 (fun _ => 0) =
        (Except.error (GenErr.exhausted p), t2))) ∧
      ((∃ s t2, generate_word 1 (buildTable 1 [['a', 'b']]) 3 (fun _ => 0) =
        (Except.ok s, t2)) ∨
      (∃ p t2, generate_word 1 (buildTable 1 [['a', 'b']]) 3 (fun _ => 0) =
        (Except.error (GenErr.exhausted p), t2))) ∧
      ((∀ i, i < (3 : Int).toNat → (fun _ => 0) i = (fun i => if i < 5 then 0 else 7) i) →
        generate_string 1 (buildTable 1 [['a', 'b']]) 3 (fun _ => 0) =
            generate_string 1 (buildTable 1 [['a', 'b']]) 3 (fun i => if i < 5 then 0 else 7) ∧
          generate_word 1 (buildTable 1 [['a', 'b']]) 3 (fun _ => 0) =
            generate_word 1 (buildTable 1 [['a', 'b']]) 3 (fun i => if i < 5 then 0 else 7)) :=
  claim_C9 1 [['a', 'b']] 3 (fun _ => 0) (fun i => if i < 5 then 0 else 7)
    (by decide) (by decide) (by decide)

/-! ## Claim C1 -/

/-- C1.  On success, both generators return a string of exactly the requested
length whose characters all come from the training words; when the Training
Set satisfies the loader invariant (all characters a-z), the output is
composed only of lowercase alphabetic characters and contains no start
marker. -/
theorem claim_C1 (k : Nat) (ws : List Word) (n : Int) (rng : Nat → Nat)
    (hws : ∀ w ∈ ws, ∀ c ∈ w, 'a' ≤ c ∧ c ≤ 'z') (hn : 1 ≤ n) :
    (∀ s t2, generate_string k (buildTable k ws) n rng = (Except.ok s, t2) →
      (s.length : Int) = n ∧ ∀ c ∈ s, ('a' ≤ c ∧ c ≤ 'z') ∧ c ≠ '^') ∧
      ∀ s t2, generate_word k (buildTable k ws) n rng = (Except.ok s, t2) →
        (s.length : Int) = n ∧ ∀ c ∈ s, ('a' ≤ c ∧ c ≤ 'z') ∧ c ≠ '^' := by
  have hwf := tableWF_buildTable k ws
  have hfin : ∀ out rest, out = List.replicate k '^' ++ rest →
      out.length = max (List.replicate k '^').length ((n + (k : Int)).toNat) →
      (∀ c ∈ rest, ∃ p, 0 < countOf (findCnt (buildTable k ws) p) c) →
      ((out.drop k).length : Int) = n ∧
        ∀ c ∈ out.drop k, ('a' ≤ c ∧ c ≤ 'z') ∧ c ≠ '^' := by
    intro out rest hout hlen hchars
    subst hout
    rw [List.length_replicate] at hlen
    have hdrop : (List.replicate k '^' ++ rest).drop k = rest := by
      have := List.drop_left (List.replicate k '^') rest
      rwa [List.length_replicate] at this
    rw [hdrop]
    constructor
    · rw [List.length_append, List.length_replicate] at hlen
      omega
    · intro c hc
      obtain ⟨w, hw, hcw⟩ := drawn_char_mem (hchars c hc)
      have hb := hws w hw c hcw
      exact ⟨hb, ne_marker_of_lowercase hb.1 hb.2⟩
  constructor
  · intro s t2 h
    by_cases hne : buildTable k ws = []
    · rw [generate_string, if_pos hne] at h
      simp at h
    · rw [generate_string, if_neg hne] at h
      rcases hrun : genLoop k n rng (buildTable k ws) (List.replicate k '^') 0 with ⟨res, t3⟩
      rw [hrun] at h
      cases res with
      | ok out =>
        simp only [Prod.mk.injEq, Except.ok.injEq] at h
        obtain ⟨rfl, rfl⟩ := h
        obtain ⟨-, hlen, rest, hout, hchars⟩ := genLoop_ok _ _ _ 0 rfl out t3 hrun hwf
        exact hfin out rest hout hlen hchars
      | error e =>
        simp at h
  · intro s t2 h
    rw [generate_word] at h
    rcases hrun : genWordLoop k n rng (buildTable k ws) (List.replicate k '^') 0 with ⟨res, t3⟩
    rw [hrun] at h
    cases res with
    | ok out =>
      simp only [Prod.mk.injEq, Except.ok.injEq] at h
      obtain ⟨rfl, rfl⟩ := h
      obtain ⟨-, hlen, rest, hout, hchars⟩ := genWordLoop_ok _ _ _ 0 rfl out t3 hrun hwf
      exact hfin out rest hout hlen hchars
    | error e =>
      simp at h

/-- C1, witness: order 1, corpus {"ab"}, length 2 deterministically generates
the two-character lowercase string "ab" in both implementations. -/
theorem claim_C1_witness :
    ((['a', 'b'] : Word).length : Int) = 2 ∧
      ∀ c ∈ (['a', 'b'] : Word), ('a' ≤ c ∧ c ≤ 'z') ∧ c ≠ '^' := by
  have s1 : genLoop 1 2 (fun _ => 0) (buildTable 1 [['a', 'b']]) ['^'] 0 =
      genLoop 1 2 (fun _ => 0) (buildTable 1 [['a', 'b']]) ['^', 'a'] 1 :=
    genLoop_step_hit_some (by decide)
      (show tableFind? (buildTable 1 [['a', 'b']]) (lastK 1 ['^']) = some [('a', 1)] by
        decide)
      (by decide) (by decide)
  have s2 : genLoop 1 2 (fun _ => 0) (buildTable 1 [['a', 'b']]) ['^', 'a'] 1 =
      genLoop 1 2 (fun _ => 0) (buildTable 1 [['a', 'b']]) ['^', 'a', 'b'] 2 :=
    genLoop_step_hit_some (by decide)
      (show tableFind? (buildTable 1 [['a', 'b']]) (lastK 1 ['^', 'a']) = some [('b', 1)] by
        decide)
      (by decide) (by decide)
  have s3 : genLoop 1 2 (fun _ => 0) (buildTable 1 [['a', 'b']]) ['^', 'a', 'b'] 2 =
      (Except.ok ['^', 'a', 'b'], buildTable 1 [['a', 'b']]) :=
    genLoop_exit _ _ _ 2 (by decide)
  have hrun : generate_string 1 (buildTable 1 [['a', 'b']]) 2 (fun _ => 0) =
      (Except.ok ['a', 'b'], buildTable 1 [['a', 'b']]) := by
    rw [generate_string, if_neg (by decide)]
    simp only [List.replicate]
    rw [s1, s2, s3]
    rfl
  exact (claim_C1 1 [['a', 'b']] 2 (fun _ => 0) (by decide) (by decide)).1
    ['a', 'b'] (buildTable 1 [['a', 'b']]) hrun

/-! ## Claim C5 -/

/-- C5, counterexample.  The claim says the build step fails with an
InvalidState error when the Training Set is empty.  The MarkovChainGenerator
build step (_build_transitions_dict) performs no check at all: on the empty
wordlist it succeeds and returns the empty table. -/
theorem claim_C5_cex : buildTransitionsDict 3 [] = Except.ok [] := rfl

/-- C5, amended.  MarkovChain.build_transition_table fails with an
InvalidState error exactly when no wordlist has been loaded (None) or the
loaded wordlist is empty, and succeeds on every nonempty Training Set with
any order; MarkovChainGenerator's _build_transitions_dict never fails and in
particular returns an empty transition table on an empty Training Set instead
of raising. -/
theorem claim_C5 (k : Nat) (wl : Option (List Word)) (ws : List Word) :
    (build_transition_table k wl = Except.error GenErr.invalidState ↔
      wl = none ∨ wl = some []) ∧
      (ws ≠ [] → build_transition_table k (some ws) = Except.ok (buildTable k ws)) ∧
      buildTransitionsDict k ws = Except.ok (buildTable k ws) := by
  refine ⟨?_, ?_, rfl⟩
  · cases wl with
    | none => simp [build_transition_table]
    | some ws' =>
      rw [build_transition_table]
      by_cases h : ws' = []
      · subst h
        simp
      · rw [if_neg (by simpa using h)]
        simp [h]
  · intro h
    rw [build_transition_table, if_neg (by simpa using h)]

/-- C5, witness: building from the one-word Training Set ["a"] succeeds. -/
theorem claim_C5_witness :
    build_transition_table 3 (some [['a']]) = Except.ok (buildTable 3 [['a']]) :=
  (claim_C5 3 (some [['a']]) [['a']]).2.1 (by decide)

/-! ## Claim C3 -/

/-- C3, counterexample.  The claim says no operation after the build step
changes the table, and that a context is a key exactly when it was observed
during building.  The tables are collections.defaultdict(Counter), so the
lookup "self.transition_table[prefix]" inserts a missing prefix with an empty
counter: for order 1 and corpus {"ab"}, asking generate_string for 3
characters draws "ab" and then fails on the never-observed prefix "b" --
and leaves the table extended with the key "b" mapped to an empty counter. -/
theorem claim_C3_cex :
    (generate_string 1 (buildTable 1 [['a', 'b']]) 3 (fun _ => 0)).2 ≠
      buildTable 1 [['a', 'b']] := by
  have s1 : genLoop 1 3 (fun _ => 0) (buildTable 1 [['a', 'b']]) ['^'] 0 =
      genLoop 1 3 (fun _ => 0) (buildTable 1 [['a', 'b']]) ['^', 'a'] 1 :=
    genLoop_step_hit_some (by decide)
      (show tableFind? (buildTable 1 [['a', 'b']]) (lastK 1 ['^']) = some [('a', 1)] by
        decide)
      (by decide) (by decide)
  have s2 : genLoop 1 3 (fun _ => 0) (buildTable 1 [['a', 'b']]) ['^', 'a'] 1 =
      genLoop 1 3 (fun _ => 0) (buildTable 1 [['a', 'b']]) ['^', 'a', 'b'] 2 :=
    genLoop_step_hit_some (by decide)
      (show tableFind? (buildTable 1 [['a', 'b']]) (lastK 1 ['^', 'a']) = some [('b', 1)] by
        decide)
      (by decide) (by decide)
  have s3 : genLoop 1 3 (fun _ => 0) (buildTable 1 [['a', 'b']]) ['^', 'a', 'b'] 2 =
      (Except.error (GenErr.exhausted ['b']), buildTable 1 [['a', 'b']] ++ [(['b'], [])]) :=
    genLoop_step_miss _ 2 (by decide) (by decide)
  rw [generate_string, if_neg (by decide)]
  simp only [List.replicate]
  rw [s1, s2, s3]
  decide

/-- C3, amended.  After the build step the table maps exactly the observed
contexts, each to a nonempty counter of positive counts; a successful
generation call (either implementation) leaves the table unchanged; but a
generation call that fails for lack of a continuation mutates the table: the
defaultdict lookup appends the offending never-observed prefix with an empty
choice set, breaking the advertised key-iff-observed invariant. -/
theorem claim_C3 (k : Nat) (ws : List Word) (length : Int) (rng : Nat → Nat) :
    (∀ p, p ∈ (buildTable k ws).map Prod.fst ↔
      ∃ w ∈ ws, ∃ i ∈ List.range ((padWord k w).length - k), winPfx k w i = p) ∧
      (∀ e ∈ buildTable k ws, e.2 ≠ [] ∧ ∀ x ∈ e.2, 0 < x.2) ∧
      (∀ s t2, generate_string k (buildTable k ws) length rng = (Except.ok s, t2) →
        t2 = buildTable k ws) ∧
      (∀ s t2, generate_word k (buildTable k ws) length rng = (Except.ok s, t2) →
        t2 = buildTable k ws) ∧
      (∀ e t2, generate_string k (buildTable k ws) length rng = (Except.error e, t2) →
        e ≠ GenErr.invalidState →
          ∃ p, e = GenErr.exhausted p ∧ tableFind? (buildTable k ws) p = none ∧
            t2 = buildTable k ws ++ [(p, [])]) ∧
      (∀ e t2, generate_word k (buildTable k ws) length rng = (Except.error e, t2) →
        ∃ p, e = GenErr.exhausted p ∧ tableFind? (buildTable k ws) p = none ∧
          t2 = buildTable k ws ++ [(p, [])]) := by
  have hwf := tableWF_buildTable k ws
  refine ⟨keys_buildTable k ws, hwf, ?_, ?_, ?_, ?_⟩
  · intro s t2 h
    by_cases hne : buildTable k ws = []
    · rw [generate_string, if_pos hne] at h
      simp at h
    · rw [generate_string, if_neg hne] at h
      rcases hrun : genLoop k length rng (buildTable k ws) (List.replicate k '^') 0 with
        ⟨res, t3⟩
      rw [hrun] at h
      cases res with
      | ok out =>
        simp only [Prod.mk.injEq, Except.ok.injEq] at h
        obtain ⟨-, rfl⟩ := h
        exact (genLoop_ok _ _ _ 0 rfl out t3 hrun hwf).1
      | error e =>
        simp at h
  · intro s t2 h
    rw [generate_word] at h
    rcases hrun : genWordLoop k length rng (buildTable k ws) (List.replicate k '^') 0 with
      ⟨res, t3⟩
    rw [hrun] at h
    cases res with
    | ok out =>
      simp only [Prod.mk.injEq, Except.ok.injEq] at h
      obtain ⟨-, rfl⟩ := h
      exact (genWordLoop_ok _ _ _ 0 rfl out t3 hrun hwf).1
    | error e =>
      simp at h
  · intro e t2 h hnis
    by_cases hne : buildTable k ws = []
    · rw [generate_string, if_pos hne] at h
      simp only [Prod.mk.injEq, Except.error.injEq] at h
      exact absurd h.1.symm hnis
    · rw [generate_string, if_neg hne] at h
      rcases hrun : genLoop k length rng (buildTable k ws) (List.replicate k '^') 0 with
        ⟨res, t3⟩
      rw [hrun] at h
      cases res with
      | ok out =>
        simp at h
      | error e' =>
        simp only [Prod.mk.injEq, Except.error.injEq] at h
        obtain ⟨rfl, rfl⟩ := h
        exact genLoop_err _ _ _ 0 rfl e' t3 hrun hwf
  · intro e t2 h
    rw [generate_word] at h
    rcases hrun : genWordLoop k length rng (buildTable k ws) (List.replicate k '^') 0 with
      ⟨res, t3⟩
    rw [hrun] at h
    cases res with
    | ok out =>
      simp at h
    | error e' =>
      simp only [Prod.mk.injEq, Except.error.injEq] at h
      obtain ⟨rfl, rfl⟩ := h
      exact genWordLoop_err _ _ _ 0 rfl e' t3 hrun hwf

/-- C3, witness: for order 1 and corpus {"ab"}, the context "a" is a key of
the built table (it is observed at position 1 of the padded word), applying
the key-characterisation clause of the amended claim. -/
theorem claim_C3_witness :
    ['a'] ∈ (buildTable 1 [['a', 'b']]).map Prod.fst ↔
      ∃ w ∈ [['a', 'b']], ∃ i ∈ List.range ((padWord 1 w).length - 1),
        winPfx 1 w i = ['a'] :=
  (claim_C3 1 [['a', 'b']] 2 (fun _ => 0)).1 ['a']

/-! ## Small sampling lemmas for concrete runs -/

theorem pickWeighted_single (c : Char) (n : Nat) {r : Nat} (h : r < n) :
    pickWeighted [(c, n)] r = some c := by
  rw [pickWeighted, if_pos h]

theorem pickWeighted_pair (c d : Char) {r : Nat} (h : r < 2) :
    pickWeighted [(c, 1), (d, 1)] r = some c ∨
      pickWeighted [(c, 1), (d, 1)] r = some d := by
  rcases (show r = 0 ∨ r = 1 by omega) with rfl | rfl
  · exact Or.inl rfl
  · exact Or.inr rfl

theorem getD_two_same (c d : Char) {r : Nat} (h : r < 2) : [c, c].getD r d = c := by
  rcases (show r = 0 ∨ r = 1 by omega) with rfl | rfl
  · rfl
  · rfl

theorem getD_two_cases (c e d : Char) {r : Nat} (h : r < 2) :
    [c, e].getD r d = c ∨ [c, e].getD r d = e := by
  rcases (show r = 0 ∨ r = 1 by omega) with rfl | rfl
  · exact Or.inl rfl
  · exact Or.inr rfl

/-- Draw step of the generator.py loop with the drawn character named. -/
theorem genWordLoop_step_draw_char {k : Nat} {length : Int} {rng : Nat → Nat}
    {t : TransTable} {buf : Word} {step : Nat} {cnt : CharCounter} {c : Char}
    (hlt : (buf.length : Int) < length + k)
    (hfind : tableFind? t (lastK k buf) = some cnt) (h : elementsOf cnt ≠ [])
    (hc : (elementsOf cnt).getD (rng step % (elementsOf cnt).length) '^' = c) :
    genWordLoop k length rng t buf step =
      genWordLoop k length rng t (buf ++ [c]) (step + 1) := by
  rw [genWordLoop_step_draw rng step hlt hfind h, hc]

/-- A list that is a permutation of an unordered pair is one of its two
orderings. -/
theorem perm_pair {l : List Word} {x y : Word} (h : l.Perm [x, y]) :
    l = [x, y] ∨ l = [y, x] := by
  have hlen : l.length = 2 := by rw [h.length_eq]; rfl
  match l, hlen with
  | [u, v], _ =>
    have hu : u ∈ [x, y] := h.subset (List.mem_cons_self _ _)
    rcases List.mem_cons.mp hu with rfl | hu
    · have hv : [v].Perm [y] := h.cons_inv
      rw [List.perm_singleton] at hv
      cases hv
      exact Or.inl rfl
    · rw [List.mem_singleton] at hu
      subst hu
      have h' : List.Perm (u :: [v]) (u :: [x]) := h.trans (List.Perm.swap u x [])
      have hv : [v].Perm [x] := h'.cons_inv
      rw [List.perm_singleton] at hv
      cases hv
      exact Or.inr rfl

/-! ## Length-5 generation from the apple/apply table -/

/-- Any successful 5-character generate_string run over a table with the
apple/apply transitions yields apple or apply. -/
theorem gen5_string {T : TransTable} (hT : T ≠ [])
    (h1 : tableFind? T ['^', '^'] = some [('a', 2)])
    (h2 : tableFind? T ['^', 'a'] = some [('p', 2)])
    (h3 : tableFind? T ['a', 'p'] = some [('p', 2)])
    (h4 : tableFind? T ['p', 'p'] = some [('l', 2)])
    (h5 : tableFind? T ['p', 'l'] = some [('e', 1), ('y', 1)] ∨
      tableFind? T ['p', 'l'] = some [('y', 1), ('e', 1)])
    (rng : Nat → Nat) (s : Word) (t2 : TransTable)
    (h : generate_string 2 T 5 rng = (Except.ok s, t2)) :
    s = ['a', 'p', 'p', 'l', 'e'] ∨ s = ['a', 'p', 'p', 'l', 'y'] := by
  have s1 : genLoop 2 5 rng T ['^', '^'] 0 = genLoop 2 5 rng T ['^', '^', 'a'] 1 :=
    genLoop_step_hit_some (by decide)
      (show tableFind? T (lastK 2 ['^', '^']) = some [('a', 2)] from h1) (by decide)
      (pickWeighted_single 'a' 2 (Nat.mod_lt _ (by decide)))
  have s2 : genLoop 2 5 rng T ['^', '^', 'a'] 1 =
      genLoop 2 5 rng T ['^', '^', 'a', 'p'] 2 :=
    genLoop_step_hit_some (by decide)
      (show tableFind? T (lastK 2 ['^', '^', 'a']) = some [('p', 2)] from h2) (by decide)
      (pickWeighted_single 'p' 2 (Nat.mod_lt _ (by decide)))
  have s3 : genLoop 2 5 rng T ['^', '^', 'a', 'p'] 2 =
      genLoop 2 5 rng T ['^', '^', 'a', 'p', 'p'] 3 :=
    genLoop_step_hit_some (by decide)
      (show tableFind? T (lastK 2 ['^', '^', 'a', 'p']) = some [('p', 2)] from h3) (by decide)
      (pickWeighted_single 'p' 2 (Nat.mod_lt _ (by decide)))
  have s4 : genLoop 2 5 rng T ['^', '^', 'a', 'p', 'p'] 3 =
      genLoop 2 5 rng T ['^', '^', 'a', 'p', 'p', 'l'] 4 :=
    genLoop_step_hit_some (by decide)
      (show tableFind? T (lastK 2 ['^', '^', 'a', 'p', 'p']) = some [('l', 2)] from h4)
      (by decide)
      (pickWeighted_single 'l' 2 (Nat.mod_lt _ (by decide)))
  have hfin : ∀ c : Char,
      genLoop 2 5 rng T ['^', '^', 'a', 'p', 'p', 'l'] 4 =
        genLoop 2 5 rng T ['^', '^', 'a', 'p', 'p', 'l', c] 5 →
      generate_string 2 T 5 rng = (Except.ok ['a', 'p', 'p', 'l', c], T) := by
    intro c s5
    rw [generate_string, if_neg hT]
    simp only [List.replicate]
    rw [s1, s2, s3, s4, s5,
      genLoop_exit rng T _ 5 (by simp only [List.length_cons, List.length_nil]; omega)]
    rfl
  have hconc : ∀ c : Char, generate_string 2 T 5 rng = (Except.ok ['a', 'p', 'p', 'l', c], T) →
      s = ['a', 'p', 'p', 'l', c] := by
    intro c hfull
    rw [h] at hfull
    simp only [Prod.mk.injEq, Except.ok.injEq] at hfull
    exact hfull.1
  rcases h5 with h5 | h5
  · rcases pickWeighted_pair 'e' 'y'
        (show rng 4 % counterTotal [('e', 1), ('y', 1)] < 2 from Nat.mod_lt _ (by decide))
      with hp | hp
    · exact Or.inl (hconc 'e' (hfin 'e' (genLoop_step_hit_some (by decide)
        (show tableFind? T (lastK 2 ['^', '^', 'a', 'p', 'p', 'l']) =
          some [('e', 1), ('y', 1)] from h5) (by decide) hp)))
    · exact Or.inr (hconc 'y' (hfin 'y' (genLoop_step_hit_some (by decide)
        (show tableFind? T (lastK 2 ['^', '^', 'a', 'p', 'p', 'l']) =
          some [('e', 1), ('y', 1)] from h5) (by decide) hp)))
  · rcases pickWeighted_pair 'y' 'e'
        (show rng 4 % counterTotal [('y', 1), ('e', 1)] < 2 from Nat.mod_lt _ (by decide))
      with hp | hp
    · exact Or.inr (hconc 'y' (hfin 'y' (genLoop_step_hit_some (by decide)
        (show tableFind? T (lastK 2 ['^', '^', 'a', 'p', 'p', 'l']) =
          some [('y', 1), ('e', 1)] from h5) (by decide) hp)))
    · exact Or.inl (hconc 'e' (hfin 'e' (genLoop_step_hit_some (by decide)
        (show tableFind? T (lastK 2 ['^', '^', 'a', 'p', 'p', 'l']) =
          some [('y', 1), ('e', 1)] from h5) (by decide) hp)))

/-- Any successful 5-character generate_word run over a table with the
apple/apply transitions yields apple or apply. -/
theorem gen5_word {T : TransTable}
    (h1 : tableFind? T ['^', '^'] = some [('a', 2)])
    (h2 : tableFind? T ['^', 'a'] = some [('p', 2)])
    (h3 : tableFind? T ['a', 'p'] = some [('p', 2)])
    (h4 : tableFind? T ['p', 'p'] = some [('l', 2)])
    (h5 : tableFind? T ['p', 'l'] = some [('e', 1), ('y', 1)] ∨
      tableFind? T ['p', 'l'] = some [('y', 1), ('e', 1)])
    (rng : Nat → Nat) (s : Word) (t2 : TransTable)
    (h : generate_word 2 T 5 rng = (Except.ok s, t2)) :
    s = ['a', 'p', 'p', 'l', 'e'] ∨ s = ['a', 'p', 'p', 'l', 'y'] := by
  have s1 : genWordLoop 2 5 rng T ['^', '^'] 0 = genWordLoop 2 5 rng T ['^', '^', 'a'] 1 :=
    genWordLoop_step_draw_char (by decide)
      (show tableFind? T (lastK 2 ['^', '^']) = some [('a', 2)] from h1) (by decide)
      (getD_two_same 'a' '^' (Nat.mod_lt _ (by decide)))
  have s2 : genWordLoop 2 5 rng T ['^', '^', 'a'] 1 =
      genWordLoop 2 5 rng T ['^', '^', 'a', 'p'] 2 :=
    genWordLoop_step_draw_char (by decide)
      (show tableFind? T (lastK 2 ['^', '^', 'a']) = some [('p', 2)] from h2) (by decide)
      (getD_two_same 'p' '^' (Nat.mod_lt _ (by decide)))
  have s3 : genWordLoop 2 5 rng T ['^', '^', 'a', 'p'] 2 =
      genWordLoop 2 5 rng T ['^', '^', 'a', 'p', 'p'] 3 :=
    genWordLoop_step_draw_char (by decide)
      (show tableFind? T (lastK 2 ['^', '^', 'a', 'p']) = some [('p', 2)] from h3) (by decide)
      (getD_two_same 'p' '^' (Nat.mod_lt _ (by decide)))
  have s4 : genWordLoop 2 5 rng T ['^', '^', 'a', 'p', 'p'] 3 =
      genWordLoop 2 5 rng T ['^', '^', 'a', 'p', 'p', 'l'] 4 :=
    genWordLoop_step_draw_char (by decide)
      (show tableFind? T (lastK 2 ['^', '^', 'a', 'p', 'p']) = some [('l', 2)] from h4)
      (by decide)
      (getD_two_same 'l' '^' (Nat.mod_lt _ (by decide)))
  have hfin : ∀ c : Char,
      genWordLoop 2 5 rng T ['^', '^', 'a', 'p', 'p', 'l'] 4 =
        genWordLoop 2 5 rng T ['^', '^', 'a', 'p', 'p', 'l', c] 5 →
      generate_word 2 T 5 rng = (Except.ok ['a', 'p', 'p', 'l', c], T) := by
    intro c s5
    rw [generate_word]
    simp only [List.replicate]
    rw [s1, s2, s3, s4, s5,
      genWordLoop_exit rng T _ 5 (by simp only [List.length_cons, List.length_nil]; omega)]
    rfl
  have hconc : ∀ c : Char, generate_word 2 T 5 rng = (Except.ok ['a', 'p', 'p', 'l', c], T) →
      s = ['a', 'p', 'p', 'l', c] := by
    intro c hfull
    rw [h] at hfull
    simp only [Prod.mk.injEq, Except.ok.injEq] at hfull
    exact hfull.1
  rcases h5 with h5 | h5
  · rcases getD_two_cases 'e' 'y' '^'
        (show rng 4 % (elementsOf [('e', 1), ('y', 1)]).length < 2 from
          Nat.mod_lt _ (by decide))
      with hp | hp
    · exact Or.inl (hconc 'e' (hfin 'e' (genWordLoop_step_draw_char (by decide)
        (show tableFind? T (lastK 2 ['^', '^', 'a', 'p', 'p', 'l']) =
          some [('e', 1), ('y', 1)] from h5) (by decide) hp)))
    · exact Or.inr (hconc 'y' (hfin 'y' (genWordLoop_step_draw_char (by decide)
        (show tableFind? T (lastK 2 ['^', '^', 'a', 'p', 'p', 'l']) =
          some [('e', 1), ('y', 1)] from h5) (by decide) hp)))
  · rcases getD_two_cases 'y' 'e' '^'
        (show rng 4 % (elementsOf [('y', 1), ('e', 1)]).length < 2 from
          Nat.mod_lt _ (by decide))
      with hp | hp
    · exact Or.inr (hconc 'y' (hfin 'y' (genWordLoop_step_draw_char (by decide)
        (show tableFind? T (lastK 2 ['^', '^', 'a', 'p', 'p', 'l']) =
          some [('y', 1), ('e', 1)] from h5) (by decide) hp)))
    · exact Or.inl (hconc 'e' (hfin 'e' (genWordLoop_step_draw_char (by decide)
        (show tableFind? T (lastK 2 ['^', '^', 'a', 'p', 'p', 'l']) =
          some [('y', 1), ('e', 1)] from h5) (by decide) hp)))

/-! ## Lemmas for the order-5 over 3-letter-words example -/

theorem length_three {w : Word} (h : w.length = 3) : ∃ a b c, w = [a, b, c] := by
  match w, h with
  | [a, b, c], _ => exact ⟨a, b, c, rfl⟩

theorem sum_pos_of_mem {l : List Nat} {x : Nat} (hx : x ∈ l) (h : 0 < x) : 0 < l.sum := by
  induction l with
  | nil => cases hx
  | cons y l ih =>
    rw [List.sum_cons]
    rcases List.mem_cons.mp hx with rfl | hx
    · omega
    · have := ih hx
      omega

/-- A window occurrence forces a positive transition count. -/
theorem transCount_pos_of_window {k : Nat} {ws : List Word} {w : Word} {i : Nat}
    {p : Word} {c : Char} (hw : w ∈ ws) (hi : i < (padWord k w).length - k)
    (hp : winPfx k w i = p) (hc : winNext k w i = c) :
    0 < transCount k ws p c := by
  rw [transCount]
  refine sum_pos_of_mem (List.mem_map.mpr ⟨w, hw, rfl⟩) ?_
  have hmem : i ∈ (List.range ((padWord k w).length - k)).filter
      (fun i => winPfx k w i = p ∧ winNext k w i = c) :=
    List.mem_filter.mpr ⟨List.mem_range.mpr hi, decide_eq_true ⟨hp, hc⟩⟩
  have := List.length_pos.mpr (List.ne_nil_of_mem hmem)
  omega

/-- A character seen with positive count under a context of the built table
came from a window of a 3-letter training word at one of positions 0-2. -/
theorem c6_draw_analysis {ws : List Word}
    (h3 : ∀ w ∈ ws, w.length = 3 ∧ ∀ c ∈ w, c ≠ '^') {p : Word} {c : Char}
    (h : 0 < countOf (findCnt (buildTable 5 ws) p) c) :
    ∃ w ∈ ws, ∃ i, i < 3 ∧ winPfx 5 w i = p ∧ winNext 5 w i = c := by
  rw [countOf_findCnt_buildTable] at h
  obtain ⟨w, hw, i, hi, hp, hc⟩ := transCount_pos_exists h
  refine ⟨w, hw, i, ?_, hp, hc⟩
  rw [padWord_length, (h3 w hw).1] at hi
  omega

theorem find_of_countOf_pos {t : TransTable} {p : Word} {c : Char}
    (h : 0 < countOf (findCnt t p) c) :
    ∃ cnt, tableFind? t p = some cnt ∧ cnt ≠ [] := by
  rcases hf : tableFind? t p with _ | cnt
  · rw [findCnt_eq_of_none hf, countOf_nil] at h
    omega
  · refine ⟨cnt, rfl, ?_⟩
    rw [findCnt_eq_of_some hf] at h
    exact ne_nil_of_countOf_pos h

/-- From a drawable context of a built table, random.choices draws some
character of positive count. -/
theorem markov_draw {k : Nat} {ws : List Word} {p : Word} (r : Nat)
    (hex : ∃ c, 0 < countOf (findCnt (buildTable k ws) p) c) :
    ∃ cnt c, tableFind? (buildTable k ws) p = some cnt ∧ cnt ≠ [] ∧
      pickWeighted cnt (r % counterTotal cnt) = some c ∧
      0 < countOf (findCnt (buildTable k ws) p) c := by
  obtain ⟨c0, h0⟩ := hex
  obtain ⟨cnt, hf, hne⟩ := find_of_countOf_pos h0
  have hpos : counterPos cnt := ((tableWF_buildTable k ws) _ (tableFind?_some_mem hf)).2
  obtain ⟨c, hpick⟩ :=
    pickWeighted_isSome cnt _ (Nat.mod_lt _ (counterTotal_pos hne hpos))
  obtain ⟨m, hm⟩ := pickWeighted_mem hpick
  exact ⟨cnt, c, hf, hne, hpick, by
    rw [findCnt_eq_of_some hf]
    exact countOf_pos_of_mem hpos hm⟩

/-- From a drawable context of a built table, secrets.choice over
Counter.elements() draws some character of positive count. -/
theorem word_draw {k : Nat} {ws : List Word} {p : Word} (r : Nat)
    (hex : ∃ c, 0 < countOf (findCnt (buildTable k ws) p) c) :
    ∃ cnt c, tableFind? (buildTable k ws) p = some cnt ∧ elementsOf cnt ≠ [] ∧
      (elementsOf cnt).getD (r % (elementsOf cnt).length) '^' = c ∧
      0 < countOf (findCnt (buildTable k ws) p) c := by
  obtain ⟨c0, h0⟩ := hex
  obtain ⟨cnt, hf, hne⟩ := find_of_countOf_pos h0
  have hpos : counterPos cnt := ((tableWF_buildTable k ws) _ (tableFind?_some_mem hf)).2
  have helems := elementsOf_ne_nil hne hpos
  have hlen : 0 < (elementsOf cnt).length := List.length_pos.mpr helems
  have hcm : (elementsOf cnt).getD (r % (elementsOf cnt).length) '^' ∈ elementsOf cnt :=
    getD_mem (Nat.mod_lt _ hlen) '^'
  obtain ⟨m, hm⟩ := mem_elementsOf hcm
  exact ⟨cnt, _, hf, helems, rfl, by
    rw [findCnt_eq_of_some hf]
    exact countOf_pos_of_mem hpos hm⟩

theorem winPfx5_0 (a b c : Char) : winPfx 5 [a, b, c] 0 = ['^', '^', '^', '^', '^'] := rfl

theorem winPfx5_1 (a b c : Char) : winPfx 5 [a, b, c] 1 = ['^', '^', '^', '^', a] := rfl

theorem winPfx5_2 (a b c : Char) : winPfx 5 [a, b, c] 2 = ['^', '^', '^', a, b] := rfl

theorem winNext5_0 (a b c : Char) : winNext 5 [a, b, c] 0 = a := rfl

theorem winNext5_1 (a b c : Char) : winNext 5 [a, b, c] 1 = b := rfl

theorem winNext5_2 (a b c : Char) : winNext 5 [a, b, c] 2 = c := rfl

theorem five_eq_comps {v w x y z v' w' x' y' z' : Char}
    (h : ([v, w, x, y, z] : Word) = [v', w', x', y', z']) :
    v = v' ∧ w = w' ∧ x = x' ∧ y = y' ∧ z = z' := by
  injection h with h1 h
  injection h with h2 h
  injection h with h3 h
  injection h with h4 h
  injection h with h5 h
  exact ⟨h1, h2, h3, h4, h5⟩

/-- Concrete failing run of generate_string for order 5 over a corpus of
marker-free 3-letter words and any requested length above 3: three draws
succeed, then the prefix of two markers and three real characters has no
entry, and generation fails identifying exactly that prefix. -/
theorem c6_run_string (ws : List Word) (n : Int) (rng : Nat → Nat)
    (h3 : ∀ w ∈ ws, w.length = 3 ∧ ∀ c ∈ w, c ≠ '^') (hne : ws ≠ []) (hn : 3 < n) :
    ∃ c1 c2 c3, c1 ≠ '^' ∧ c2 ≠ '^' ∧ c3 ≠ '^' ∧
      (generate_string 5 (buildTable 5 ws) n rng).1 =
        Except.error (GenErr.exhausted ['^', '^', c1, c2, c3]) := by
  obtain ⟨w0, hw0⟩ := List.exists_mem_of_ne_nil ws hne
  obtain ⟨a0, b0, d0, rfl⟩ := length_three (h3 w0 hw0).1
  have hex1 : ∃ c, 0 < countOf (findCnt (buildTable 5 ws) ['^', '^', '^', '^', '^']) c := by
    refine ⟨a0, ?_⟩
    rw [countOf_findCnt_buildTable]
    refine transCount_pos_of_window hw0 ?_ (winPfx5_0 a0 b0 d0) (winNext5_0 a0 b0 d0)
    rw [padWord_length, (h3 _ hw0).1]
    omega
  obtain ⟨cnt1, c1, hf1, hcne1, hpick1, hcpos1⟩ := markov_draw (rng 0) hex1
  have hc1 : c1 ≠ '^' := by
    obtain ⟨w, hw, hcw⟩ := drawn_char_mem ⟨_, hcpos1⟩
    exact (h3 w hw).2 c1 hcw
  obtain ⟨w1, hw1, i, hi, hpfx1, hnext1⟩ := c6_draw_analysis h3 hcpos1
  obtain ⟨a1, b1, d1, rfl⟩ := length_three (h3 w1 hw1).1
  have hw1a : a1 = c1 := by
    rcases (show i = 0 ∨ i = 1 ∨ i = 2 by omega) with rfl | rfl | rfl
    · rw [winNext5_0] at hnext1
      exact hnext1
    · rw [winPfx5_1] at hpfx1
      exact absurd (five_eq_comps hpfx1).2.2.2.2 ((h3 _ hw1).2 a1 (by simp))
    · rw [winPfx5_2] at hpfx1
      exact absurd (five_eq_comps hpfx1).2.2.2.1 ((h3 _ hw1).2 a1 (by simp))
  subst hw1a
  have hex2 : ∃ c, 0 < countOf (findCnt (buildTable 5 ws) ['^', '^', '^', '^', a1]) c := by
    refine ⟨b1, ?_⟩
    rw [countOf_findCnt_buildTable]
    refine transCount_pos_of_window hw1 ?_ (winPfx5_1 a1 b1 d1) (winNext5_1 a1 b1 d1)
    rw [padWord_length, (h3 _ hw1).1]
    omega
  obtain ⟨cnt2, c2, hf2, hcne2, hpick2, hcpos2⟩ := markov_draw (rng 1) hex2
  have hc2 : c2 ≠ '^' := by
    obtain ⟨w, hw, hcw⟩ := drawn_char_mem ⟨_, hcpos2⟩
    exact (h3 w hw).2 c2 hcw
  obtain ⟨w2, hw2, j, hj, hpfx2, hnext2⟩ := c6_draw_analysis h3 hcpos2
  obtain ⟨a2, b2, d2, rfl⟩ := length_three (h3 w2 hw2).1
  have hw2ab : a2 = a1 ∧ b2 = c2 := by
    rcases (show j = 0 ∨ j = 1 ∨ j = 2 by omega) with rfl | rfl | rfl
    · rw [winPfx5_0] at hpfx2
      exact absurd (five_eq_comps hpfx2).2.2.2.2.symm hc1
    · rw [winPfx5_1] at hpfx2
      rw [winNext5_1] at hnext2
      exact ⟨(five_eq_comps hpfx2).2.2.2.2, hnext2⟩
    · rw [winPfx5_2] at hpfx2
      exact absurd (five_eq_comps hpfx2).2.2.2.1 ((h3 _ hw2).2 a2 (by simp))
  obtain ⟨h2a, h2b⟩ := hw2ab
  subst h2a
  subst h2b
  have hex3 : ∃ c, 0 < countOf (findCnt (buildTable 5 ws) ['^', '^', '^', a2, b2]) c := by
    refine ⟨d2, ?_⟩
    rw [countOf_findCnt_buildTable]
    refine transCount_pos_of_window hw2 ?_ (winPfx5_2 a2 b2 d2) (winNext5_2 a2 b2 d2)
    rw [padWord_length, (h3 _ hw2).1]
    omega
  obtain ⟨cnt3, c3, hf3, hcne3, hpick3, hcpos3⟩ := markov_draw (rng 2) hex3
  have hc3 : c3 ≠ '^' := by
    obtain ⟨w, hw, hcw⟩ := drawn_char_mem ⟨_, hcpos3⟩
    exact (h3 w hw).2 c3 hcw
  have hfind4 : tableFind? (buildTable 5 ws) ['^', '^', a2, b2, c3] = none := by
    rcases hf : tableFind? (buildTable 5 ws) ['^', '^', a2, b2, c3] with _ | cnt
    · rfl
    · exfalso
      have hkey : ['^', '^', a2, b2, c3] ∈ (buildTable 5 ws).map Prod.fst :=
        List.mem_map.mpr ⟨(['^', '^', a2, b2, c3], cnt), tableFind?_some_mem hf, rfl⟩
      rw [keys_buildTable] at hkey
      obtain ⟨w, hw, i', hi', hpfx⟩ := hkey
      obtain ⟨a, b, d, rfl⟩ := length_three (h3 w hw).1
      rw [List.mem_range, padWord_length, (h3 _ hw).1] at hi'
      rcases (show i' = 0 ∨ i' = 1 ∨ i' = 2 by omega) with rfl | rfl | rfl
      · rw [winPfx5_0] at hpfx
        exact hc1 (five_eq_comps hpfx).2.2.1.symm
      · rw [winPfx5_1] at hpfx
        exact hc1 (five_eq_comps hpfx).2.2.1.symm
      · rw [winPfx5_2] at hpfx
        exact hc1 (five_eq_comps hpfx).2.2.1.symm
  have hne' : buildTable 5 ws ≠ [] := by
    refine buildTable_ne_nil 5 ws hne ?_
    intro w hw hc
    have := (h3 w hw).1
    rw [hc] at this
    simp at this
  refine ⟨a2, b2, c3, hc1, hc2, hc3, ?_⟩
  have s1 : genLoop 5 n rng (buildTable 5 ws) ['^', '^', '^', '^', '^'] 0 =
      genLoop 5 n rng (buildTable 5 ws) (['^', '^', '^', '^', '^'] ++ [a2]) 1 :=
    genLoop_step_hit_some
      (by simp only [List.length_cons, List.length_nil]; omega)
      (show tableFind? (buildTable 5 ws) (lastK 5 ['^', '^', '^', '^', '^']) =
        some cnt1 from hf1)
      hcne1 hpick1
  have s2 : genLoop 5 n rng (buildTable 5 ws) (['^', '^', '^', '^', '^'] ++ [a2]) 1 =
      genLoop 5 n rng (buildTable 5 ws) ((['^', '^', '^', '^', '^'] ++ [a2]) ++ [b2]) 2 :=
    genLoop_step_hit_some
      (by simp only [List.length_append, List.length_cons, List.length_nil]; omega)
      (show tableFind? (buildTable 5 ws)
        (lastK 5 (['^', '^', '^', '^', '^'] ++ [a2])) = some cnt2 from hf2)
      hcne2 hpick2
  have s3 : genLoop 5 n rng (buildTable 5 ws)
      ((['^', '^', '^', '^', '^'] ++ [a2]) ++ [b2]) 2 =
      genLoop 5 n rng (buildTable 5 ws)
        (((['^', '^', '^', '^', '^'] ++ [a2]) ++ [b2]) ++ [c3]) 3 :=
    genLoop_step_hit_some
      (by simp only [List.length_append, List.length_cons, List.length_nil]; omega)
      (show tableFind? (buildTable 5 ws)
        (lastK 5 ((['^', '^', '^', '^', '^'] ++ [a2]) ++ [b2])) = some cnt3 from hf3)
      hcne3 hpick3
  have s4 : genLoop 5 n rng (buildTable 5 ws)
      (((['^', '^', '^', '^', '^'] ++ [a2]) ++ [b2]) ++ [c3]) 3 =
      (Except.error (GenErr.exhausted
          (lastK 5 (((['^', '^', '^', '^', '^'] ++ [a2]) ++ [b2]) ++ [c3]))),
        buildTable 5 ws ++
          [(lastK 5 (((['^', '^', '^', '^', '^'] ++ [a2]) ++ [b2]) ++ [c3]), [])]) :=
    genLoop_step_miss rng 3
      (by simp only [List.length_append, List.length_cons, List.length_nil]; omega)
      (show tableFind? (buildTable 5 ws)
        (lastK 5 (((['^', '^', '^', '^', '^'] ++ [a2]) ++ [b2]) ++ [c3])) = none
        from hfind4)
  rw [generate_string, if_neg hne']
  simp only [List.replicate]
  rw [s1, s2, s3, s4]
  rfl

/-- Concrete failing run of generate_word for order 5 over a corpus of
marker-free 3-letter words and any requested length above 3. -/
theorem c6_run_word (ws : List Word) (n : Int) (rng : Nat → Nat)
    (h3 : ∀ w ∈ ws, w.length = 3 ∧ ∀ c ∈ w, c ≠ '^') (hne : ws ≠ []) (hn : 3 < n) :
    ∃ c1 c2 c3, c1 ≠ '^' ∧ c2 ≠ '^' ∧ c3 ≠ '^' ∧
      (generate_word 5 (buildTable 5 ws) n rng).1 =
        Except.error (GenErr.exhausted ['^', '^', c1, c2, c3]) := by
  obtain ⟨w0, hw0⟩ := List.exists_mem_of_ne_nil ws hne
  obtain ⟨a0, b0, d0, rfl⟩ := length_three (h3 w0 hw0).1
  have hex1 : ∃ c, 0 < countOf (findCnt (buildTable 5 ws) ['^', '^', '^', '^', '^']) c := by
    refine ⟨a0, ?_⟩
    rw [countOf_findCnt_buildTable]
    refine transCount_pos_of_window hw0 ?_ (winPfx5_0 a0 b0 d0) (winNext5_0 a0 b0 d0)
    rw [padWord_length, (h3 _ hw0).1]
    omega
  obtain ⟨cnt1, c1, hf1, hcne1, hpick1, hcpos1⟩ := word_draw (rng 0) hex1
  have hc1 : c1 ≠ '^' := by
    obtain ⟨w, hw, hcw⟩ := drawn_char_mem ⟨_, hcpos1⟩
    exact (h3 w hw).2 c1 hcw
  obtain ⟨w1, hw1, i, hi, hpfx1, hnext1⟩ := c6_draw_analysis h3 hcpos1
  obtain ⟨a1, b1, d1, rfl⟩ := length_three (h3 w1 hw1).1
  have hw1a : a1 = c1 := by
    rcases (show i = 0 ∨ i = 1 ∨ i = 2 by omega) with rfl | rfl | rfl
    · rw [winNext5_0] at hnext1
      exact hnext1
    · rw [winPfx5_1] at hpfx1
      exact absurd (five_eq_comps hpfx1).2.2.2.2 ((h3 _ hw1).2 a1 (by simp))
    · rw [winPfx5_2] at hpfx1
      exact absurd (five_eq_comps hpfx1).2.2.2.1 ((h3 _ hw1).2 a1 (by simp))
  subst hw1a
  have hex2 : ∃ c, 0 < countOf (findCnt (buildTable 5 ws) ['^', '^', '^', '^', a1]) c := by
    refine ⟨b1, ?_⟩
    rw [countOf_findCnt_buildTable]
    refine transCount_pos_of_window hw1 ?_ (winPfx5_1 a1 b1 d1) (winNext5_1 a1 b1 d1)
    rw [padWord_length, (h3 _ hw1).1]
    omega
  obtain ⟨cnt2, c2, hf2, hcne2, hpick2, hcpos2⟩ := word_draw (rng 1) hex2
  have hc2 : c2 ≠ '^' := by
    obtain ⟨w, hw, hcw⟩ := drawn_char_mem ⟨_, hcpos2⟩
    exact (h3 w hw).2 c2 hcw
  obtain ⟨w2, hw2, j, hj, hpfx2, hnext2⟩ := c6_draw_analysis h3 hcpos2
  obtain ⟨a2, b2, d2, rfl⟩ := length_three (h3 w2 hw2).1
  have hw2ab : a2 = a1 ∧ b2 = c2 := by
    rcases (show j = 0 ∨ j = 1 ∨ j = 2 by omega) with rfl | rfl | rfl
    · rw [winPfx5_0] at hpfx2
      exact absurd (five_eq_comps hpfx2).2.2.2.2.symm hc1
    · rw [winPfx5_1] at hpfx2
      rw [winNext5_1] at hnext2
      exact ⟨(five_eq_comps hpfx2).2.2.2.2, hnext2⟩
    · rw [winPfx5_2] at hpfx2
      exact absurd (five_eq_comps hpfx2).2.2.2.1 ((h3 _ hw2).2 a2 (by simp))
  obtain ⟨h2a, h2b⟩ := hw2ab
  subst h2a
  subst h2b
  have hex3 : ∃ c, 0 < countOf (findCnt (buildTable 5 ws) ['^', '^', '^', a2, b2]) c := by
    refine ⟨d2, ?_⟩
    rw [countOf_findCnt_buildTable]
    refine transCount_pos_of_window hw2 ?_ (winPfx5_2 a2 b2 d2) (winNext5_2 a2 b2 d2)
    rw [padWord_length, (h3 _ hw2).1]
    omega
  obtain ⟨cnt3, c3, hf3, hcne3, hpick3, hcpos3⟩ := word_draw (rng 2) hex3
  have hc3 : c3 ≠ '^' := by
    obtain ⟨w, hw, hcw⟩ := drawn_char_mem ⟨_, hcpos3⟩
    exact (h3 w hw).2 c3 hcw
  have hfind4 : tableFind? (buildTable 5 ws) ['^', '^', a2, b2, c3] = none := by
    rcases hf : tableFind? (buildTable 5 ws) ['^', '^', a2, b2, c3] with _ | cnt
    · rfl
    · exfalso
      have hkey : ['^', '^', a2, b2, c3] ∈ (buildTable 5 ws).map Prod.fst :=
        List.mem_map.mpr ⟨(['^', '^', a2, b2, c3], cnt), tableFind?_some_mem hf, rfl⟩
      rw [keys_buildTable] at hkey
      obtain ⟨w, hw, i', hi', hpfx⟩ := hkey
      obtain ⟨a, b, d, rfl⟩ := length_three (h3 w hw).1
      rw [List.mem_range, padWord_length, (h3 _ hw).1] at hi'
      rcases (show i' = 0 ∨ i' = 1 ∨ i' = 2 by omega) with rfl | rfl | rfl
      · rw [winPfx5_0] at hpfx
        exact hc1 (five_eq_comps hpfx).2.2.1.symm
      · rw [winPfx5_1] at hpfx
        exact hc1 (five_eq_comps hpfx).2.2.1.symm
      · rw [winPfx5_2] at hpfx
        exact hc1 (five_eq_comps hpfx).2.2.1.symm
  refine ⟨a2, b2, c3, hc1, hc2, hc3, ?_⟩
  have s1 : genWordLoop 5 n rng (buildTable 5 ws) ['^', '^', '^', '^', '^'] 0 =
      genWordLoop 5 n rng (buildTable 5 ws) (['^', '^', '^', '^', '^'] ++ [a2]) 1 :=
    genWordLoop_step_draw_char
      (by simp only [List.length_cons, List.length_nil]; omega)
      (show tableFind? (buildTable 5 ws) (lastK 5 ['^', '^', '^', '^', '^']) =
        some cnt1 from hf1)
      hcne1 hpick1
  have s2 : genWordLoop 5 n rng (buildTable 5 ws) (['^', '^', '^', '^', '^'] ++ [a2]) 1 =
      genWordLoop 5 n rng (buildTable 5 ws)
        ((['^', '^', '^', '^', '^'] ++ [a2]) ++ [b2]) 2 :=
    genWordLoop_step_draw_char
      (by simp only [List.length_append, List.length_cons, List.length_nil]; omega)
      (show tableFind? (buildTable 5 ws)
        (lastK 5 (['^', '^', '^', '^', '^'] ++ [a2])) = some cnt2 from hf2)
      hcne2 hpick2
  have s3 : genWordLoop 5 n rng (buildTable 5 ws)
      ((['^', '^', '^', '^', '^'] ++ [a2]) ++ [b2]) 2 =
      genWordLoop 5 n rng (buildTable 5 ws)
        (((['^', '^', '^', '^', '^'] ++ [a2]) ++ [b2]) ++ [c3]) 3 :=
    genWordLoop_step_draw_char
      (by simp only [List.length_append, List.length_cons, List.length_nil]; omega)
      (show tableFind? (buildTable 5 ws)
        (lastK 5 ((['^', '^', '^', '^', '^'] ++ [a2]) ++ [b2])) = some cnt3 from hf3)
      hcne3 hpick3
  have s4 : genWordLoop 5 n rng (buildTable 5 ws)
      (((['^', '^', '^', '^', '^'] ++ [a2]) ++ [b2]) ++ [c3]) 3 =
      (Except.error (GenErr.exhausted
          (lastK 5 (((['^', '^', '^', '^', '^'] ++ [a2]) ++ [b2]) ++ [c3]))),
        buildTable 5 ws ++
          [(lastK 5 (((['^', '^', '^', '^', '^'] ++ [a2]) ++ [b2]) ++ [c3]), [])]) :=
    genWordLoop_step_miss rng 3
      (by simp only [List.length_append, List.length_cons, List.length_nil]; omega)
      (show tableFind? (buildTable 5 ws)
        (lastK 5 (((['^', '^', '^', '^', '^'] ++ [a2]) ++ [b2]) ++ [c3])) = none
        from hfind4)
  rw [generate_word]
  simp only [List.replicate]
  rw [s1, s2, s3, s4]
  rfl

/-! ## Claim C6 -/

/-- C6.  For every model (any table built from any Training Set, any order,
any requested length), whenever generation fails for lack of a continuation
the ExhaustedTransitions error identifies exactly the offending context,
which indeed has no entry (equivalently, an empty choice set) in the built
table; and in the promised example -- order 5 over a nonempty corpus of
marker-free 3-letter words, any requested length above 3 -- both
implementations fail with that error on the first draw past position 3: the
offending prefix is two markers followed by the three characters generated
so far. -/
theorem claim_C6 (k : Nat) (ws : List Word) (length n : Int) (rng rng2 : Nat → Nat) :
    (∀ t2 p, generate_string k (buildTable k ws) length rng2 =
        (Except.error (GenErr.exhausted p), t2) → findCnt (buildTable k ws) p = []) ∧
      (∀ t2 p, generate_word k (buildTable k ws) length rng2 =
        (Except.error (GenErr.exhausted p), t2) → findCnt (buildTable k ws) p = []) ∧
      ((∀ w ∈ ws, w.length = 3 ∧ ∀ c ∈ w, c ≠ '^') → ws ≠ [] → 3 < n →
        (∃ c1 c2 c3, c1 ≠ '^' ∧ c2 ≠ '^' ∧ c3 ≠ '^' ∧
          (generate_string 5 (buildTable 5 ws) n rng).1 =
            Except.error (GenErr.exhausted ['^', '^', c1, c2, c3])) ∧
          ∃ c1 c2 c3, c1 ≠ '^' ∧ c2 ≠ '^' ∧ c3 ≠ '^' ∧
            (generate_word 5 (buildTable 5 ws) n rng).1 =
              Except.error (GenErr.exhausted ['^', '^', c1, c2, c3])) := by
  have hwf := tableWF_buildTable k ws
  refine ⟨?_, ?_, fun h3 hne hn =>
    ⟨c6_run_string ws n rng h3 hne hn, c6_run_word ws n rng h3 hne hn⟩⟩
  · intro t2 p h
    by_cases hne' : buildTable k ws = []
    · rw [generate_string, if_pos hne'] at h
      simp at h
    · rw [generate_string, if_neg hne'] at h
      rcases hrun : genLoop k length rng2 (buildTable k ws) (List.replicate k '^') 0 with
        ⟨res, t3⟩
      rw [hrun] at h
      cases res with
      | ok out => simp at h
      | error e =>
        simp only [Prod.mk.injEq, Except.error.injEq] at h
        obtain ⟨rfl, rfl⟩ := h
        obtain ⟨p', hp', hfindp', -⟩ := genLoop_err _ _ _ 0 rfl _ t3 hrun hwf
        injection hp' with hpp
        subst hpp
        exact findCnt_eq_of_none hfindp'
  · intro t2 p h
    rw [generate_word] at h
    rcases hrun : genWordLoop k length rng2 (buildTable k ws) (List.replicate k '^') 0 with
      ⟨res, t3⟩
    rw [hrun] at h
    cases res with
    | ok out => simp at h
    | error e =>
      simp only [Prod.mk.injEq, Except.error.injEq] at h
      obtain ⟨rfl, rfl⟩ := h
      obtain ⟨p', hp', hfindp', -⟩ := genWordLoop_err _ _ _ 0 rfl _ t3 hrun hwf
      injection hp' with hpp
      subst hpp
      exact findCnt_eq_of_none hfindp'

/-- C6, witness: order 5 over the corpus {"abc"} with requested length 6;
generate_string fails with ExhaustedTransitions on the prefix of two markers
and the three generated characters. -/
theorem claim_C6_witness :
    ∃ c1 c2 c3, c1 ≠ '^' ∧ c2 ≠ '^' ∧ c3 ≠ '^' ∧
      (generate_string 5 (buildTable 5 [['a', 'b', 'c']]) 6 (fun _ => 0)).1 =
        Except.error (GenErr.exhausted ['^', '^', c1, c2, c3]) :=
  ((claim_C6 5 [['a', 'b', 'c']] 6 6 (fun _ => 0) (fun _ => 0)).2.2
    (by decide) (by decide) (by decide)).1

/-! ## Claim C2 -/

/-- C2.  For the Training Set {"apple", "apply"} (in either iteration order)
and order 2, the built table maps context ^^ to {a: 2}, ap to {p: 2},
pp to {l: 2} and pl to {e: 1, y: 1} (the last counter in either insertion
order); and every successful generation of length 5 from that table, by
either implementation, yields a string that starts with "appl" and ends with
e or y. -/
theorem claim_C2 (ws : List Word) (rng : Nat → Nat) (s : Word) (t2 : TransTable)
    (hperm : ws.Perm [['a', 'p', 'p', 'l', 'e'], ['a', 'p', 'p', 'l', 'y']]) :
    findCnt (buildTable 2 ws) ['^', '^'] = [('a', 2)] ∧
      findCnt (buildTable 2 ws) ['a', 'p'] = [('p', 2)] ∧
      findCnt (buildTable 2 ws) ['p', 'p'] = [('l', 2)] ∧
      (findCnt (buildTable 2 ws) ['p', 'l'] = [('e', 1), ('y', 1)] ∨
        findCnt (buildTable 2 ws) ['p', 'l'] = [('y', 1), ('e', 1)]) ∧
      (generate_string 2 (buildTable 2 ws) 5 rng = (Except.ok s, t2) →
        s.take 4 = ['a', 'p', 'p', 'l'] ∧
          (s.getLastD '^' = 'e' ∨ s.getLastD '^' = 'y')) ∧
      (generate_word 2 (buildTable 2 ws) 5 rng = (Except.ok s, t2) →
        s.take 4 = ['a', 'p', 'p', 'l'] ∧
          (s.getLastD '^' = 'e' ∨ s.getLastD '^' = 'y')) := by
  have hshape : ∀ s : Word,
      (s = ['a', 'p', 'p', 'l', 'e'] ∨ s = ['a', 'p', 'p', 'l', 'y']) →
      s.take 4 = ['a', 'p', 'p', 'l'] ∧
        (s.getLastD '^' = 'e' ∨ s.getLastD '^' = 'y') := by
    rintro s (rfl | rfl)
    · exact ⟨rfl, Or.inl rfl⟩
    · exact ⟨rfl, Or.inr rfl⟩
  rcases perm_pair hperm with rfl | rfl
  · refine ⟨by decide, by decide, by decide, Or.inl (by decide), ?_, ?_⟩
    · intro h
      exact hshape s (gen5_string (by decide) (by decide) (by decide) (by decide)
        (by decide) (Or.inl (by decide)) rng s t2 h)
    · intro h
      exact hshape s (gen5_word (by decide) (by decide) (by decide) (by decide)
        (Or.inl (by decide)) rng s t2 h)
  · refine ⟨by decide, by decide, by decide, Or.inr (by decide), ?_, ?_⟩
    · intro h
      exact hshape s (gen5_string (by decide) (by decide) (by decide) (by decide)
        (by decide) (Or.inr (by decide)) rng s t2 h)
    · intro h
      exact hshape s (gen5_word (by decide) (by decide) (by decide) (by decide)
        (Or.inr (by decide)) rng s t2 h)

/-- C2, witness: the canonical iteration order, with the all-zero random
stream; the generated string is "apple", which starts with "appl" and ends
with e. -/
theorem claim_C2_witness :
    (['a', 'p', 'p', 'l', 'e'] : Word).take 4 = ['a', 'p', 'p', 'l'] ∧
      ((['a', 'p', 'p', 'l', 'e'] : Word).getLastD '^' = 'e' ∨
        (['a', 'p', 'p', 'l', 'e'] : Word).getLastD '^' = 'y') := by
  have s1 : genLoop 2 5 (fun _ => 0)
      (buildTable 2 [['a', 'p', 'p', 'l', 'e'], ['a', 'p', 'p', 'l', 'y']])
      ['^', '^'] 0 =
      genLoop 2 5 (fun _ => 0)
        (buildTable 2 [['a', 'p', 'p', 'l', 'e'], ['a', 'p', 'p', 'l', 'y']])
        ['^', '^', 'a'] 1 :=
    genLoop_step_hit_some (by decide)
      (show tableFind? (buildTable 2 [['a', 'p', 'p', 'l', 'e'], ['a', 'p', 'p', 'l', 'y']])
        (lastK 2 ['^', '^']) = some [('a', 2)] by decide) (by decide) (by decide)
  have s2 : genLoop 2 5 (fun _ => 0)
      (buildTable 2 [['a', 'p', 'p', 'l', 'e'], ['a', 'p', 'p', 'l', 'y']])
      ['^', '^', 'a'] 1 =
      genLoop 2 5 (fun _ => 0)
        (buildTable 2 [['a', 'p', 'p', 'l', 'e'], ['a', 'p', 'p', 'l', 'y']])
        ['^', '^', 'a', 'p'] 2 :=
    genLoop_step_hit_some (by decide)
      (show tableFind? (buildTable 2 [['a', 'p', 'p', 'l', 'e'], ['a', 'p', 'p', 'l', 'y']])
        (lastK 2 ['^', '^', 'a']) = some [('p', 2)] by decide) (by decide) (by decide)
  have s3 : genLoop 2 5 (fun _ => 0)
      (buildTable 2 [['a', 'p', 'p', 'l', 'e'], ['a', 'p', 'p', 'l', 'y']])
      ['^', '^', 'a', 'p'] 2 =
      genLoop 2 5 (fun _ => 0)
        (buildTable 2 [['a', 'p', 'p', 'l', 'e'], ['a', 'p', 'p', 'l', 'y']])
        ['^', '^', 'a', 'p', 'p'] 3 :=
    genLoop_step_hit_some (by decide)
      (show tableFind? (buildTable 2 [['a', 'p', 'p', 'l', 'e'], ['a', 'p', 'p', 'l', 'y']])
        (lastK 2 ['^', '^', 'a', 'p']) = some [('p', 2)] by decide) (by decide) (by decide)
  have s4 : genLoop 2 5 (fun _ => 0)
      (buildTable 2 [['a', 'p', 'p', 'l', 'e'], ['a', 'p', 'p', 'l', 'y']])
      ['^', '^', 'a', 'p', 'p'] 3 =
      genLoop 2 5 (fun _ => 0)
        (buildTable 2 [['a', 'p', 'p', 'l', 'e'], ['a', 'p', 'p', 'l', 'y']])
        ['^', '^', 'a', 'p', 'p', 'l'] 4 :=
    genLoop_step_hit_some (by decide)
      (show tableFind? (buildTable 2 [['a', 'p', 'p', 'l', 'e'], ['a', 'p', 'p', 'l', 'y']])
        (lastK 2 ['^', '^', 'a', 'p', 'p']) = some [('l', 2)] by decide) (by decide)
      (by decide)
  have s5 : genLoop 2 5 (fun _ => 0)
      (buildTable 2 [['a', 'p', 'p', 'l', 'e'], ['a', 'p', 'p', 'l', 'y']])
      ['^', '^', 'a', 'p', 'p', 'l'] 4 =
      genLoop 2 5 (fun _ => 0)
        (buildTable 2 [['a', 'p', 'p', 'l', 'e'], ['a', 'p', 'p', 'l', 'y']])
        ['^', '^', 'a', 'p', 'p', 'l', 'e'] 5 :=
    genLoop_step_hit_some (by decide)
      (show tableFind? (buildTable 2 [['a', 'p', 'p', 'l', 'e'], ['a', 'p', 'p', 'l', 'y']])
        (lastK 2 ['^', '^', 'a', 'p', 'p', 'l']) = some [('e', 1), ('y', 1)] by decide)
      (by decide) (by decide)
  have hrun : generate_string 2
      (buildTable 2 [['a', 'p', 'p', 'l', 'e'], ['a', 'p', 'p', 'l', 'y']]) 5 (fun _ => 0) =
      (Except.ok ['a', 'p', 'p', 'l', 'e'],
        buildTable 2 [['a', 'p', 'p', 'l', 'e'], ['a', 'p', 'p', 'l', 'y']]) := by
    rw [generate_string, if_neg (by decide)]
    simp only [List.replicate]
    rw [s1, s2, s3, s4, s5, genLoop_exit _ _ _ 5 (by decide)]
    rfl
  exact (claim_C2 [['a', 'p', 'p', 'l', 'e'], ['a', 'p', 'p', 'l', 'y']] (fun _ => 0)
    ['a', 'p', 'p', 'l', 'e'] _ (List.Perm.refl _)).2.2.2.2.1 hrun

/-! ## Claim C4 -/

/-- C4, counterexample.  The claim says that for every loader input the
resulting Training Set is a deduplicated set whose members match the pattern
of one or more characters a-z.  Both parts fail on the code.  The
MarkovChainGenerator loader (generator.py) returns a plain list: the input
consisting of the line "ab" twice loads to the list [ab, ab], which still
contains the duplicate.  And Python's str.isalpha accepts every Unicode
letter, so the single non-ASCII letter 0xE9 passes the filter of both
loaders, is unchanged by str.lower, and becomes a member that does not match
the a-z pattern. -/
theorem claim_C4_cex :
    (loadWordlistFromFile [['a', 'b'], ['a', 'b']] = [['a', 'b'], ['a', 'b']] ∧
      ¬ (loadWordlistFromFile [['a', 'b'], ['a', 'b']]).Nodup) ∧
      load_wordlist [['é']] = [['é']] ∧
      loadWordlistFromFile [['é']] = [['é']] ∧
      ¬ ('é' ≤ 'z') := by
  refine ⟨?_, by decide, ?_, by decide⟩
  · rw [loadWordlistFromFile_eq]
    exact ⟨by decide, by decide⟩
  · rw [loadWordlistFromFile_eq]
    decide

/-- C4, amended.  Both loaders keep exactly the lines that pass str.isalpha,
lowercased: lines with digits, punctuation, internal whitespace, or nothing
at all are dropped.  Every member is nonempty and contains no start marker.
The MarkovChain loader deduplicates into a set, while the
MarkovChainGenerator loader returns a list in input order with duplicates
retained.  When every input character is ASCII, every member matches the
pattern of one or more characters a-z; the unconditional form of that
invariant is false of the program, since str.isalpha also accepts non-ASCII
letters, which survive lowercasing outside a-z. -/
theorem claim_C4 (lines : List Word) :
    (load_wordlist lines).Nodup ∧
      (∀ v, v ∈ load_wordlist lines ↔
        ∃ w ∈ lines, pyIsAlpha w = true ∧ lowerWord w = v) ∧
      (∀ v ∈ load_wordlist lines, v ≠ [] ∧ ∀ c ∈ v, c ≠ '^') ∧
      loadWordlistFromFile lines = (lines.filter pyIsAlpha).map lowerWord ∧
      (∀ v ∈ loadWordlistFromFile lines, v ≠ [] ∧ ∀ c ∈ v, c ≠ '^') ∧
      ((∀ w ∈ lines, ∀ c ∈ w, c.toNat < 128) →
        (∀ v ∈ load_wordlist lines, ∀ c ∈ v, 'a' ≤ c ∧ c ≤ 'z') ∧
          ∀ v ∈ loadWordlistFromFile lines, ∀ c ∈ v, 'a' ≤ c ∧ c ≤ 'z') := by
  refine ⟨nodup_load_wordlist lines, mem_load_wordlist lines, ?_,
    loadWordlistFromFile_eq lines, ?_, ?_⟩
  · intro v hv
    obtain ⟨w, _, hw2, rfl⟩ := (mem_load_wordlist lines v).mp hv
    exact lowerWord_shape hw2
  · intro v hv
    rw [loadWordlistFromFile_eq, List.mem_map] at hv
    obtain ⟨w, hw, rfl⟩ := hv
    rw [List.mem_filter] at hw
    exact lowerWord_shape hw.2
  · intro hascii
    constructor
    · intro v hv
      obtain ⟨w, hwmem, hw2, rfl⟩ := (mem_load_wordlist lines v).mp hv
      exact lowerWord_ascii hw2 (hascii w hwmem)
    · intro v hv
      rw [loadWordlistFromFile_eq, List.mem_map] at hv
      obtain ⟨w, hw, rfl⟩ := hv
      rw [List.mem_filter] at hw
      exact lowerWord_ascii hw.2 (hascii w hw.1)

/-- C4, witness: on the ASCII input lines "Ab" and "a1", the member "ab" of
the loaded set is lowercase alphabetic. -/
theorem claim_C4_witness :
    ∀ c ∈ (['a', 'b'] : Word), 'a' ≤ c ∧ c ≤ 'z' :=
  ((claim_C4 [['A', 'b'], ['a', '1']]).2.2.2.2.2 (by decide)).1 ['a', 'b'] (by decide)

/-! ## Claim C8 -/

/-- C8, counterexample.  The claim says loading inputs with the same multiset
of lines in any order yields equal Training Sets.  For the
MarkovChainGenerator loader the inputs ["ab", "ba"] and ["ba", "ab"] are
permutations of one another but load to the distinct lists [ab, ba] and
[ba, ab]. -/
theorem claim_C8_cex :
    ([['a', 'b'], ['b', 'a']] : List Word).Perm [['b', 'a'], ['a', 'b']] ∧
      loadWordlistFromFile [['a', 'b'], ['b', 'a']] ≠
        loadWordlistFromFile [['b', 'a'], ['a', 'b']] := by
  constructor
  · decide
  · rw [loadWordlistFromFile_eq, loadWordlistFromFile_eq]
    decide

/-- C8, amended.  For inputs containing the same multiset of lines in any
order, the MarkovChain loader yields equal Training Sets (equal as sets,
which is how Python compares them), and the MarkovChainGenerator loader
yields lists with the same members; the generator's lists may nevertheless
differ as lists since they preserve input order and multiplicity.  Loading
the same input twice trivially yields identical results since both loaders
are pure. -/
theorem claim_C8 (l1 l2 : List Word) (h : l1.Perm l2) :
    (load_wordlist l1).toFinset = (load_wordlist l2).toFinset ∧
      ∀ v, v ∈ loadWordlistFromFile l1 ↔ v ∈ loadWordlistFromFile l2 := by
  constructor
  · ext v
    rw [List.mem_toFinset, List.mem_toFinset, mem_load_wordlist, mem_load_wordlist]
    constructor
    · rintro ⟨w, hw1, hw2, hw3⟩
      exact ⟨w, h.mem_iff.mp hw1, hw2, hw3⟩
    · rintro ⟨w, hw1, hw2, hw3⟩
      exact ⟨w, h.mem_iff.mpr hw1, hw2, hw3⟩
  · intro v
    rw [loadWordlistFromFile_eq, loadWordlistFromFile_eq, List.mem_map, List.mem_map]
    constructor
    · rintro ⟨w, hw, rfl⟩
      rw [List.mem_filter] at hw
      exact ⟨w, List.mem_filter.mpr ⟨h.mem_iff.mp hw.1, hw.2⟩, rfl⟩
    · rintro ⟨w, hw, rfl⟩
      rw [List.mem_filter] at hw
      exact ⟨w, List.mem_filter.mpr ⟨h.mem_iff.mpr hw.1, hw.2⟩, rfl⟩

/-- C8, witness: the permuted inputs ["ab", "cd"] and ["cd", "ab"] load to
equal sets under the MarkovChain loader and member-equivalent lists under the
MarkovChainGenerator loader. -/
theorem claim_C8_witness :
    (load_wordlist [['a', 'b'], ['c', 'd']]).toFinset =
        (load_wordlist [['c', 'd'], ['a', 'b']]).toFinset ∧
      ∀ v, v ∈ loadWordlistFromFile [['a', 'b'], ['c', 'd']] ↔
        v ∈ loadWordlistFromFile [['c', 'd'], ['a', 'b']] :=
  claim_C8 _ _ (by decide)

end Passclip
